import Mathlib

/-!
# Connection-rate load generator: worker pacing, shared counters, reporter

A shallow embedding of `redis_connection_test.cpp` (the plain program) and
`redis_connection_test_with_latency.cpp` (the latency program).

The threads of one process are modelled as a transition system.  A state holds
the three shared cells (`running`, `totalConnections`, `totalLatency`), a
monotonic clock, one record per worker thread and one for the main thread, which
runs the reporting loop of `testConnection`.  A schedule is a list of actions:
the clock advances, SIGINT is delivered, the main thread takes a step, or worker
`i` takes a step.  Everything the outside world decides during a worker step (the
outcome of `redisConnect`, whether `redisCommand` returns a reply, clock
readings, spurious failure of a weak compare-exchange) comes with the action.
Quantifying over all schedules therefore quantifies over all interleavings and
all behaviours of the server.

Every step of a thread contains at most one access to a shared cell; the
thread-local statements around it are folded into the same step.

Times are nanoseconds.  `int` values are mathematical integers; the arithmetic on
`std::atomic<int>` wraps to 32 bits as C++ defines it, and an `int` division
with a zero divisor is reported as undefined.  The overflow of a plain `int` is
outside the model: `connections++` runs only below `desiredRate`, and
`seconds++` would need more than 2^31 - 1 one-second reports.
-/

namespace CpsTest

/-! ## Machine arithmetic -/

/-- Largest value of a 32-bit `int`. -/
def INT_MAX : Int := 2147483647

/-- Smallest value of a 32-bit `int`. -/
def INT_MIN : Int := -2147483648

/-- Two's-complement wrap into the range of `int`: the value kept by an
arithmetic operation on `std::atomic<int>`. -/
def wrapInt32 (x : Int) : Int := (x + 2147483648) % 4294967296 - 2147483648

/-- The C++ expression `a / b` on `int`: the quotient truncated toward zero;
`none` where the expression is undefined (zero divisor, or `INT_MIN / -1`). -/
def intDiv (a b : Int) : Option Int :=
  if b = 0 ∨ (a = INT_MIN ∧ b = -1) then none else some (a.tdiv b)

/-- The count of `duration_cast<seconds>(t1 - t0)`, times in nanoseconds. -/
def elapsedSeconds (t0 t1 : Int) : Int := (t1 - t0).tdiv 1000000000

/-- The count of `duration_cast<milliseconds>(t1 - t0)`, times in nanoseconds. -/
def elapsedMillis (t0 t1 : Int) : Int := (t1 - t0).tdiv 1000000

/-- The count of `duration_cast<microseconds>(t1 - t0)`, times in nanoseconds. -/
def elapsedMicros (t0 t1 : Int) : Int := (t1 - t0).tdiv 1000

/-- A `double` as far as the reporter needs it: not-a-number, the two
infinities, or a finite value (kept exact; rounding is not modelled). -/
inductive F64
  | nan
  | posInf
  | negInf
  | finite (q : ℚ)
  deriving DecidableEq

/-- IEEE-754 quotient `total / (double) n` of an integer-valued `double` by an
`int`.  A zero divisor does not trap: `0 / 0` is NaN and `x / 0` is the infinity
with the sign of `x`. -/
def F64.divInt (total n : Int) : F64 :=
  if n = 0 then
    if total = 0 then F64.nan
    else if 0 < total then F64.posInf
    else F64.negInf
  else F64.finite ((total : ℚ) / (n : ℚ))

/-- Whether the value is a finite number. -/
def F64.isFinite : F64 → Bool
  | F64.finite _ => true
  | _ => false

/-! ## Data model -/

/-- Which of the two programs is running. -/
inductive Variant
  | plain
  | latency
  deriving DecidableEq

/-- What `redisConnect` hands back: `nullptr`, a context whose `err` field is
set, or a usable context. -/
inductive ConnectResult
  | null
  | error
  | ok
  deriving DecidableEq

/-- The failure test of the worker: `context == nullptr || context->err`. -/
def ConnectResult.failed : ConnectResult → Bool
  | ConnectResult.ok => false
  | _ => true

/-- Actions of a worker that the outside can see, in the order of the source. -/
inductive Event
  /-- `while (running)` of the outer loop read this value. -/
  | checkOuter (running : Bool)
  /-- `&& running` of the inner loop condition read this value. -/
  | checkInner (running : Bool)
  /-- `redisConnect(host, port)` returned this. -/
  | connect (r : ConnectResult)
  /-- `std::this_thread::sleep_for(std::chrono::milliseconds(ms))`. -/
  | sleep (ms : Int)
  /-- `redisCommand(context, "GET testkey")`. -/
  | command
  /-- `freeReplyObject(reply)`. -/
  | freeReply
  /-- `redisFree(context)`: the connection is closed. -/
  | redisFree
  /-- `totalConnections++`. -/
  | incTotal
  /-- A successful compare-exchange added this many microseconds to
  `totalLatency`. -/
  | addLatency (us : Int)
  deriving DecidableEq

/-- Program points of `workerThread`. -/
inductive Pc
  /-- At `while (running)`. -/
  | outerCheck
  /-- At `while (connections < desiredRate && running)`. -/
  | innerCheck
  /-- At the top of the inner loop body, before `redisConnect`. -/
  | attempt
  /-- At `double current = totalLatency.load()` (latency program). -/
  | latLoad
  /-- Inside the `do ... while (!compare_exchange_weak(...))` loop (latency
  program). -/
  | latCas
  /-- At `auto now = steady_clock::now()` after a counted cycle. -/
  | breakCheck
  /-- After the inner loop, at `auto end = steady_clock::now()`. -/
  | pacing
  /-- The function has returned. -/
  | done
  deriving DecidableEq

/-- The cells shared by all threads. -/
structure Shared where
  /-- `std::atomic<bool> running`. -/
  running : Bool
  /-- `std::atomic<int> totalConnections`. -/
  totalConnections : Int
  /-- `std::atomic<double> totalLatency`; it only ever holds sums of integer
  microsecond counts, kept here as that integer. -/
  totalLatency : Int
  deriving DecidableEq

/-- One worker thread: its parameter, its locals, and the history of what it
did. -/
structure Worker where
  /-- Parameter `desiredRate`. -/
  desiredRate : Int
  pc : Pc
  /-- Local `start`, a `steady_clock` time point. -/
  start : Int
  /-- Local `connections`. -/
  connections : Int
  /-- Local `latency` (latency program). -/
  latency : Int
  /-- Local `current` (latency program). -/
  current : Int
  /-- Local `desired` (latency program). -/
  desired : Int
  /-- The thread is inside `sleep_for` until the clock reaches this time. -/
  wakeAt : Int
  /-- History of the events of this worker, most recent first. -/
  log : List Event
  deriving DecidableEq

/-- What the outside world decides during one worker step. -/
structure Env where
  /-- Result of `redisConnect`. -/
  connect : ConnectResult
  /-- Whether `redisCommand` returns a non-null reply. -/
  reply : Bool
  /-- Reading of `high_resolution_clock::now()` at the top of the iteration. -/
  requestStart : Int
  /-- Reading of `high_resolution_clock::now()` after `redisFree`. -/
  requestEnd : Int
  /-- Whether `compare_exchange_weak` is spared a spurious failure. -/
  casOk : Bool
  deriving DecidableEq

/-- One pair of lines printed by the reporter. -/
inductive Report
  /-- Plain program: "Connections in last second" and "Average connections per
  second". -/
  | rate (connectionsPerSecond : Int) (average : Int)
  /-- Latency program: "Connections in last second" and "Average latency". -/
  | latency (connectionsPerSecond : Int) (avgLatency : F64)
  deriving DecidableEq

/-- Program points of the main thread inside `testConnection`. -/
inductive RPc
  /-- At `while (running)`. -/
  | loopCheck
  /-- Inside the loop body, at `sleep_for(seconds(1))` and what follows up to
  the exchange of `totalConnections`. -/
  | body
  /-- Latency program: at `totalLatency.exchange(0) / connectionsPerSecond`. -/
  | average
  /-- At the loop over `thread.join()`. -/
  | join
  /-- The function has returned. -/
  | returned
  /-- An `int` division without a defined result was evaluated. -/
  | undefined
  deriving DecidableEq

/-- The main thread while it runs the reporting loop. -/
structure Reporter where
  pc : RPc
  /-- Local `seconds` (plain program). -/
  seconds : Int
  /-- Local `connectionsPerSecond`. -/
  connectionsPerSecond : Int
  /-- The thread is inside `sleep_for` until the clock reaches this time. -/
  wakeAt : Int
  /-- Values returned by `totalConnections.exchange(0)`, most recent first. -/
  obtained : List Int
  /-- Reports printed so far, in the order printed. -/
  output : List Report
  deriving DecidableEq

/-- The whole process. -/
structure State where
  variant : Variant
  /-- Monotonic time in nanoseconds (`steady_clock`). -/
  clock : Int
  shared : Shared
  workers : List Worker
  reporter : Reporter
  deriving DecidableEq

/-! ## The worker -/

/-- The pacing decision after the inner loop: with `elapsed` milliseconds used
by the window, `if (elapsed < 1000) sleep_for(milliseconds(1000 - elapsed))`.
The result is the requested sleep, if any. -/
def pacingSleep (elapsed : Int) : Option Int :=
  if elapsed < 1000 then some (1000 - elapsed) else none

/-- One step of `workerThread`.

* `outerCheck`: `while (running)`; on true, `start = now; connections = 0`.
* `innerCheck`: `while (connections < desiredRate && running)`; `running` is
  read only when the comparison holds.
* `attempt`: `redisConnect`; on failure `sleep_for(10 ms); continue`; otherwise
  `redisCommand`, `freeReplyObject` when the reply is non-null, `redisFree`,
  `connections++`, `totalConnections++` (the latency program also sets
  `latency` from its two clock readings).
* `latLoad`, `latCas`: the compare-exchange loop that adds `latency` to
  `totalLatency`.
* `breakCheck`: `if (elapsed >= 1) break`, elapsed in whole seconds.
* `pacing`: the sleep for the rest of the window, then back to `outerCheck`. -/
def workerThread (v : Variant) (clock : Int) (env : Env) (sh : Shared) (w : Worker) :
    Worker × Shared :=
  match w.pc with
  | Pc.outerCheck =>
    if sh.running then
      ({ w with pc := Pc.innerCheck, start := clock, connections := 0,
                log := Event.checkOuter true :: w.log }, sh)
    else
      ({ w with pc := Pc.done, log := Event.checkOuter false :: w.log }, sh)
  | Pc.innerCheck =>
    if w.connections < w.desiredRate then
      if sh.running then
        ({ w with pc := Pc.attempt, log := Event.checkInner true :: w.log }, sh)
      else
        ({ w with pc := Pc.pacing, log := Event.checkInner false :: w.log }, sh)
    else
      ({ w with pc := Pc.pacing }, sh)
  | Pc.attempt =>
    if env.connect.failed then
      ({ w with pc := Pc.innerCheck, wakeAt := clock + 10 * 1000000,
                log := Event.sleep 10 :: Event.connect env.connect :: w.log }, sh)
    else
      let served : List Event :=
        if env.reply then [Event.freeReply, Event.command, Event.connect env.connect]
        else [Event.command, Event.connect env.connect]
      ({ w with
          pc := (match v with
                 | Variant.plain => Pc.breakCheck
                 | Variant.latency => Pc.latLoad),
          latency := (match v with
                      | Variant.plain => w.latency
                      | Variant.latency => elapsedMicros env.requestStart env.requestEnd),
          connections := w.connections + 1,
          log := Event.incTotal :: Event.redisFree :: (served ++ w.log) },
       { sh with totalConnections := wrapInt32 (sh.totalConnections + 1) })
  | Pc.latLoad =>
    ({ w with pc := Pc.latCas, current := sh.totalLatency }, sh)
  | Pc.latCas =>
    let desired := w.current + w.latency
    if sh.totalLatency = w.current ∧ env.casOk = true then
      ({ w with pc := Pc.breakCheck, desired := desired,
                log := Event.addLatency w.latency :: w.log },
       { sh with totalLatency := desired })
    else
      ({ w with desired := desired, current := sh.totalLatency }, sh)
  | Pc.breakCheck =>
    if elapsedSeconds w.start clock ≥ 1 then
      ({ w with pc := Pc.pacing }, sh)
    else
      ({ w with pc := Pc.innerCheck }, sh)
  | Pc.pacing =>
    match pacingSleep (elapsedMillis w.start clock) with
    | some ms =>
      ({ w with pc := Pc.outerCheck, wakeAt := clock + ms * 1000000,
                log := Event.sleep ms :: w.log }, sh)
    | none => ({ w with pc := Pc.outerCheck }, sh)
  | Pc.done => (w, sh)

/-- The handler of SIGINT: `running = false` (its console message is not
modelled). -/
def signalHandler (sh : Shared) : Shared := { sh with running := false }

/-! ## The supervisor and the reporter -/

/-- A thread created by `threads.emplace_back(workerThread, host, port,
ratePerThread, ...)`: at the entry of `workerThread`, with `connections = 0`. -/
def spawn (ratePerThread : Int) : Worker :=
  { desiredRate := ratePerThread, pc := Pc.outerCheck, start := 0, connections := 0,
    latency := 0, current := 0, desired := 0, wakeAt := 0, log := [] }

/-- The loop `for (int i = 0; i < numThreads; ++i) threads.emplace_back(...)`,
entered with the given `i` and `threads`. -/
def spawnLoop (ratePerThread numThreads : Int) (i : Int) (threads : List Worker) :
    List Worker :=
  if i < numThreads then
    spawnLoop ratePerThread numThreads (i + 1) (threads ++ [spawn ratePerThread])
  else threads
termination_by (numThreads - i).toNat
decreasing_by omega

/-- The process at the entry of the reporting loop, given the threads created:
`running(true)`, `totalConnections(0)`, `totalLatency(0)`, `seconds = 0`. -/
def boot (v : Variant) (threads : List Worker) : State :=
  { variant := v
    clock := 0
    shared := { running := true, totalConnections := 0, totalLatency := 0 }
    workers := threads
    reporter := { pc := RPc.loopCheck, seconds := 0, connectionsPerSecond := 0,
                  wakeAt := 0, obtained := [], output := [] } }

/-- The start of `testConnection`: `ratePerThread = desiredRate / numThreads` is
evaluated and the workers are spawned.  `none` when the division is
undefined. -/
def testConnection (v : Variant) (desiredRate numThreads : Int) : Option State :=
  match intDiv desiredRate numThreads with
  | none => none
  | some ratePerThread => some (boot v (spawnLoop ratePerThread numThreads 0 []))

/-- One step of the reporting loop of `testConnection`.

* `loopCheck`: `while (running)`; on true the thread sleeps one second.
* `body`: `seconds++` (plain program), then
  `connectionsPerSecond = totalConnections.exchange(0)`; the plain program
  prints the count and `connectionsPerSecond / seconds`.
* `average` (latency program): `avgLatency = totalLatency.exchange(0) /
  connectionsPerSecond`, then both lines are printed.
* `join`: returns once every worker has returned. -/
def reporterStep (v : Variant) (clock : Int) (allDone : Bool) (sh : Shared) (r : Reporter) :
    Reporter × Shared :=
  match r.pc with
  | RPc.loopCheck =>
    if sh.running then
      ({ r with pc := RPc.body, wakeAt := clock + 1000000000 }, sh)
    else ({ r with pc := RPc.join }, sh)
  | RPc.body =>
    match v with
    | Variant.plain =>
      let seconds := r.seconds + 1
      let connectionsPerSecond := sh.totalConnections
      match intDiv connectionsPerSecond seconds with
      | some average =>
        ({ r with pc := RPc.loopCheck, seconds := seconds,
                  connectionsPerSecond := connectionsPerSecond,
                  obtained := connectionsPerSecond :: r.obtained,
                  output := r.output ++ [Report.rate connectionsPerSecond average] },
         { sh with totalConnections := 0 })
      | none =>
        ({ r with pc := RPc.undefined, seconds := seconds,
                  connectionsPerSecond := connectionsPerSecond,
                  obtained := connectionsPerSecond :: r.obtained },
         { sh with totalConnections := 0 })
    | Variant.latency =>
      ({ r with pc := RPc.average, connectionsPerSecond := sh.totalConnections,
                obtained := sh.totalConnections :: r.obtained },
       { sh with totalConnections := 0 })
  | RPc.average =>
    let avgLatency := F64.divInt sh.totalLatency r.connectionsPerSecond
    ({ r with pc := RPc.loopCheck,
              output := r.output ++ [Report.latency r.connectionsPerSecond avgLatency] },
     { sh with totalLatency := 0 })
  | RPc.join =>
    if allDone then ({ r with pc := RPc.returned }, sh) else (r, sh)
  | RPc.returned => (r, sh)
  | RPc.undefined => (r, sh)

/-! ## The process as a transition system -/

/-- What can happen next. -/
inductive Action
  /-- Time passes. -/
  | tick (ns : Nat)
  /-- SIGINT is delivered. -/
  | signal
  /-- The main thread takes a step. -/
  | reporter
  /-- Worker `i` takes a step in the given surroundings. -/
  | worker (i : Nat) (env : Env)
  deriving DecidableEq

/-- One transition.  A thread inside `sleep_for` does not move before its wake-up
time. -/
def step (s : State) : Action → State
  | Action.tick ns => { s with clock := s.clock + ns }
  | Action.signal => { s with shared := signalHandler s.shared }
  | Action.reporter =>
    if s.clock < s.reporter.wakeAt then s
    else
      let r := reporterStep s.variant s.clock (s.workers.all (fun w => w.pc = Pc.done))
        s.shared s.reporter
      { s with reporter := r.1, shared := r.2 }
  | Action.worker i env =>
    match s.workers[i]? with
    | none => s
    | some w =>
      if s.clock < w.wakeAt then s
      else
        let r := workerThread s.variant s.clock env s.shared w
        { s with workers := s.workers.set i r.1, shared := r.2 }

/-- The state after a schedule. -/
def run (s : State) (sched : List Action) : State := sched.foldl step s

/-! ## Start-up -/

/-- The characters `isspace` accepts: space, tab, line feed, vertical tab, form
feed, carriage return. -/
def isSpace (c : Char) : Bool :=
  c.toNat = 32 || (9 ≤ c.toNat && c.toNat ≤ 13)

/-- The library function `std::stoi(str)` in base 10: leading white space is
skipped, an optional sign and the longest run of decimal digits are read, and
what follows is ignored.  `none` stands for the exception thrown when there is
no digit (`std::invalid_argument`) or the value does not fit an `int`
(`std::out_of_range`). -/
def stoi (str : String) : Option Int :=
  let rest := str.toList.dropWhile isSpace
  let signed : Bool × List Char :=
    match rest with
    | '-' :: cs => (true, cs)
    | '+' :: cs => (false, cs)
    | cs => (false, cs)
  let digits := signed.2.takeWhile Char.isDigit
  if digits.isEmpty then none
  else
    let magnitude : Nat := digits.foldl (fun acc c => 10 * acc + (c.toNat - 48)) 0
    let value : Int := if signed.1 then -(magnitude : Int) else (magnitude : Int)
    if INT_MIN ≤ value ∧ value ≤ INT_MAX then some value else none

/-- How `main` gets as far as the call of `testConnection`, or does not. -/
inductive Startup
  /-- `argc != 5`: the usage line is printed and `main` returns 1. -/
  | usage
  /-- `std::stoi` threw; nothing catches the exception. -/
  | parseFailure
  /-- The call `testConnection(host, port, desiredRate, numThreads)` is made. -/
  | call (host : String) (port desiredRate numThreads : Int)
  deriving DecidableEq

/-- The part of `main` before `testConnection`: the count of arguments is
checked and `argv[2]`, `argv[3]`, `argv[4]` go through `std::stoi`.  `argv`
includes the program name, so `argc` is its length. -/
def parseArgs (argv : List String) : Startup :=
  match argv with
  | [_, host, a2, a3, a4] =>
    match stoi a2 with
    | none => Startup.parseFailure
    | some port =>
      match stoi a3 with
      | none => Startup.parseFailure
      | some desiredRate =>
        match stoi a4 with
        | none => Startup.parseFailure
        | some numThreads => Startup.call host port desiredRate numThreads
  | _ => Startup.usage

/-- What `main` leads to. -/
inductive MainResult
  /-- Exit status 1 after the usage line. -/
  | usage
  /-- Abnormal termination by an exception of `std::stoi`. -/
  | parseFailure
  /-- The division in `testConnection` was evaluated without a defined
  result. -/
  | undefinedDivision
  /-- The workers are spawned and the reporting loop starts from this state. -/
  | running (s : State)
  deriving DecidableEq

/-- The function `main`. -/
def main (v : Variant) (argv : List String) : MainResult :=
  match parseArgs argv with
  | Startup.usage => MainResult.usage
  | Startup.parseFailure => MainResult.parseFailure
  | Startup.call _ _ desiredRate numThreads =>
    match testConnection v desiredRate numThreads with
    | none => MainResult.undefinedDivision
    | some s => MainResult.running s

/-! ## Reading a worker history -/

/-- The worker read `running` and found it false. -/
def Event.isStop : Event → Bool
  | Event.checkOuter false => true
  | Event.checkInner false => true
  | _ => false

/-- Whether the history contains a read of `running` that returned false. -/
def sawStop (log : List Event) : Bool := log.any Event.isStop

/-- The events that follow the first read of `running` that returned false
(most recent first, like the history itself). -/
def afterStop : List Event → List Event
  | [] => []
  | e :: rest => if sawStop rest then e :: afterStop rest else []

/-- The duration of a sleep event. -/
def Event.sleepMs : Event → Option Int
  | Event.sleep ms => some ms
  | _ => none

/-- Durations of the sleeps started after the worker first read `running` as
false. -/
def sleepsAfterStop (log : List Event) : List Int :=
  (afterStop log).filterMap Event.sleepMs

/-- The number of `totalConnections++` in each window of a history, the current
window first.  A window opens when `while (running)` of the outer loop reads
true. -/
def windowIncs : List Event → List Nat
  | [] => []
  | Event.checkOuter true :: rest => 0 :: windowIncs rest
  | Event.incTotal :: rest =>
    match windowIncs rest with
    | [] => []
    | c :: cs => (c + 1) :: cs
  | _ :: rest => windowIncs rest

/-- The number of cycles a worker has completed: a cycle is completed by its
`totalConnections++`. -/
def completedCycles (w : Worker) : Nat := w.log.count Event.incTotal

/-- Completed cycles of all workers. -/
def totalCompleted (s : State) : Nat := (s.workers.map completedCycles).sum

/-- The connection count of a report. -/
def Report.connections : Report → Int
  | Report.rate c _ => c
  | Report.latency c _ => c

/-- The action is not a worker step whose `redisConnect` succeeds. -/
def Action.connectFails : Action → Bool
  | Action.worker _ env => env.connect.failed
  | _ => true

/-- Every `redisConnect` in the schedule fails. -/
def allConnectsFail (sched : List Action) : Bool := sched.all Action.connectFails

/-- Where a worker is between a counted cycle and the next loop test. -/
def Pc.afterCount : Pc → Bool
  | Pc.latLoad => true
  | Pc.latCas => true
  | Pc.breakCheck => true
  | _ => false

/-! ## Invariants and sample inputs -/

/-- What a worker keeps true about its count: `connections` is between 0 and
the quota, is below the quota when a connection is about to be attempted, and
is the number of increments of the current window; no window exceeded the
quota; a worker without quota never connected. -/
def QuotaInv (w : Worker) : Prop :=
  0 ≤ w.connections ∧ w.connections ≤ max w.desiredRate 0 ∧
  (w.pc = Pc.attempt → w.connections < w.desiredRate) ∧
  ((windowIncs w.log = [] ∧ w.connections = 0 ∧ (w.pc = Pc.outerCheck ∨ w.pc = Pc.done)) ∨
    ∃ cs, windowIncs w.log = w.connections.toNat :: cs) ∧
  (∀ c ∈ windowIncs w.log, (c : Int) ≤ max w.desiredRate 0) ∧
  (w.desiredRate ≤ 0 → ∀ e ∈ w.log, e ≠ Event.incTotal ∧ ∀ r, e ≠ Event.connect r)

/-- What stays true while every connect fails. -/
def FailInv (s : State) : Prop :=
  s.shared.totalConnections = 0 ∧ s.reporter.connectionsPerSecond = 0 ∧
  0 ≤ s.reporter.seconds ∧
  (∀ x ∈ s.reporter.obtained, x = 0) ∧
  (∀ rep ∈ s.reporter.output, rep.connections = 0) ∧
  s.reporter.pc ≠ RPc.undefined ∧
  (∀ w ∈ s.workers, completedCycles w = 0 ∧
    (w.pc = Pc.done → s.shared.running = false ∧ Event.checkOuter false ∈ w.log))

/-- No `totalConnections++` of the schedule wraps: the counter is below
`INT_MAX` before every step of a worker. -/
def counterNeverWraps (s : State) : List Action → Bool
  | [] => true
  | a :: rest =>
    (match a with
     | Action.worker _ _ => decide (s.shared.totalConnections < INT_MAX)
     | _ => true) && counterNeverWraps (step s a) rest

/-- The counter is an `int`, and with what the reporter took out of it it
accounts for every completed cycle. -/
def CountInv (s : State) : Prop :=
  INT_MIN ≤ s.shared.totalConnections ∧ s.shared.totalConnections ≤ INT_MAX ∧
  s.reporter.obtained.sum + s.shared.totalConnections = (totalCompleted s : Int)

/-- What the plain reporter keeps true: no division was undefined, `seconds`
is the number of reports printed, one value was obtained per report, and
report `k + 1` shows the value obtained for it and that value divided by
`k + 1`. -/
def RateInv (r : Reporter) : Prop :=
  r.pc ≠ RPc.undefined ∧ r.pc ≠ RPc.average ∧ r.seconds = (r.output.length : Int) ∧
  r.obtained.length = r.output.length ∧
  ∀ (k : Nat) (c : Int), r.obtained.reverse[k]? = some c →
    r.output[k]? = some (Report.rate c (c.tdiv ((k : Int) + 1)))

/-- What a worker keeps true about shutdown: its window did not start in the
future; once it has read `running` as false the flag is false; and after that
read it is at the pacing step having done nothing more, or back at the outer
loop test after at most the pacing sleep, or has returned. -/
def StopInv (running : Bool) (clock : Int) (w : Worker) : Prop :=
  w.start ≤ clock ∧ (sawStop w.log = true → running = false) ∧
  (sawStop w.log = false ∨
   (w.pc = Pc.pacing ∧ afterStop w.log = []) ∨
   (w.pc = Pc.outerCheck ∧
     (afterStop w.log = [] ∨
       ∃ d : Int, afterStop w.log = [Event.sleep d] ∧ 1 ≤ d ∧ d ≤ 1000)) ∨
   (w.pc = Pc.done ∧
     (afterStop w.log = [] ∨ afterStop w.log = [Event.checkOuter false] ∨
       ∃ d : Int,
         afterStop w.log = [Event.checkOuter false, Event.sleep d] ∧ 1 ≤ d ∧ d ≤ 1000)))

/-- What a worker can still have done after it first read `running` as false:
nothing, the pacing sleep of the window it was in, the read of the outer loop
test that makes it return, or both (most recent first). -/
def StopTail (tail : List Event) : Prop :=
  tail = [] ∨ (∃ d : Int, tail = [Event.sleep d] ∧ 1 ≤ d ∧ d ≤ 1000) ∨
  tail = [Event.checkOuter false] ∨
  ∃ d : Int, tail = [Event.checkOuter false, Event.sleep d] ∧ 1 ≤ d ∧ d ≤ 1000

/-- Surroundings in which the server answers. -/
def serverUp : Env :=
  { connect := ConnectResult.ok, reply := true, requestStart := 0, requestEnd := 150000,
    casOk := true }

/-- Surroundings in which the server cannot be reached. -/
def serverDown : Env :=
  { connect := ConnectResult.null, reply := false, requestStart := 0, requestEnd := 0,
    casOk := true }

/-- A shutdown two milliseconds into a window: worker 0 opens a window, SIGINT
arrives, the worker reads `running` in the inner loop test and goes on to the
end of the window. -/
def stopSchedule : List Action :=
  [Action.worker 0 serverUp, Action.tick 2000000, Action.signal,
   Action.worker 0 serverUp, Action.worker 0 serverUp]

/-- Every sleep that a worker of the state started after it first read
`running` as false lasts at most `bound` milliseconds. -/
def SleepsAfterStopWithin (bound : Int) (s : State) : Prop :=
  ∀ w ∈ s.workers, ∀ d ∈ sleepsAfterStop w.log, d ≤ bound

/-- One second with a server that cannot be reached: worker 0 opens a window
and fails to connect, the reporter sleeps its second and reports. -/
def unreachableSchedule : List Action :=
  [Action.worker 0 serverDown, Action.worker 0 serverDown, Action.worker 0 serverDown,
   Action.reporter, Action.tick 1000000000, Action.reporter, Action.reporter]

/-- One second of the reporter with nothing else going on. -/
def idleSecond : List Action :=
  [Action.reporter, Action.tick 1000000000, Action.reporter]

/-- Two seconds of two workers with rates 2 and 1 and a server that answers:
both complete a cycle, the reporter reports, worker 0 completes a second cycle
in its next window, the reporter reports again. -/
def busySchedule : List Action :=
  [Action.worker 0 serverUp, Action.worker 0 serverUp, Action.worker 0 serverUp,
   Action.worker 1 serverUp, Action.worker 1 serverUp, Action.worker 1 serverUp,
   Action.reporter, Action.tick 1000000000, Action.reporter,
   Action.worker 0 serverUp, Action.worker 0 serverUp, Action.worker 0 serverUp,
   Action.worker 0 serverUp, Action.worker 0 serverUp,
   Action.reporter, Action.tick 1000000000, Action.reporter]

/-- The state after `busySchedule` in the plain program. -/
def busyState : State := run (boot Variant.plain ([2, 1].map spawn)) busySchedule

/-- Worker 0 after `busySchedule`. -/
def busyWorker : Worker := busyState.workers.headD (spawn 0)

/-- A worker with quota 5 about to connect, three cycles into its window. -/
def attemptWorker : Worker :=
  { desiredRate := 5, pc := Pc.attempt, start := 0, connections := 3, latency := 0,
    current := 0, desired := 0, wakeAt := 0, log := [] }

/-- A worker with quota 5 at the end of a window that began at time 0. -/
def pacingWorker : Worker :=
  { desiredRate := 5, pc := Pc.pacing, start := 0, connections := 5, latency := 0,
    current := 0, desired := 0, wakeAt := 0, log := [] }

/-- Shared cells with the flag up and 7 connections counted. -/
def sharedSeven : Shared := { running := true, totalConnections := 7, totalLatency := 0 }

/-- How far a program point of `workerThread` is from the return once `running`
is false: no step taken under a false flag raises it, and 0 is the return. -/
def Pc.rank : Pc → Nat
  | Pc.done => 0
  | Pc.outerCheck => 1
  | Pc.pacing => 2
  | Pc.innerCheck => 3
  | Pc.breakCheck => 4
  | Pc.latCas => 5
  | Pc.latLoad => 6
  | Pc.attempt => 7

/-- What a worker keeps true about time: its window did not start in the
future, and a sleep it is in ends within a second. -/
def ClockInv (clock : Int) (w : Worker) : Prop :=
  w.start ≤ clock ∧ w.wakeAt ≤ clock + 1000000000

/-- A second to wake up and then a step, twice, for worker `i`. -/
def exitSchedule (i : Nat) (env1 env2 : Env) : List Action :=
  [Action.tick 1000000000, Action.worker i env1, Action.tick 1000000000, Action.worker i env2]

/-- The number of steps a worker still needs to return once `running` is false,
when its compare-exchange is not disturbed. -/
def stepsLeft (sh : Shared) (w : Worker) : Nat :=
  match w.pc with
  | Pc.done => 0
  | Pc.outerCheck => 1
  | Pc.pacing => 2
  | Pc.innerCheck => 3
  | Pc.breakCheck => 4
  | Pc.latCas => if sh.totalLatency = w.current then 5 else 6
  | Pc.latLoad => 6
  | Pc.attempt => 7

/-- Worker `i` alone for `n` steps, with a second to wake up before each. -/
def drainSchedule (i : Nat) (env : Env) : Nat → List Action
  | 0 => []
  | n + 1 => Action.tick 1000000000 :: Action.worker i env :: drainSchedule i env n

/-- The event is a call of `redisConnect`. -/
def Event.isConnect : Event → Bool
  | Event.connect _ => true
  | _ => false

/-- The event is a call of `sleep_for`. -/
def Event.isSleep : Event → Bool
  | Event.sleep _ => true
  | _ => false

/-- Connection attempts a worker at this program point can still make once
`running` is false: the one of the iteration it is in. -/
def Pc.connectsLeft : Pc → Nat
  | Pc.attempt => 1
  | _ => 0

/-- Sleeps a worker at this program point can still start once `running` is
false: the backoff of the iteration it is in and the pacing sleep of its
window. -/
def Pc.sleepsLeft : Pc → Nat
  | Pc.attempt => 2
  | Pc.latLoad => 1
  | Pc.latCas => 1
  | Pc.breakCheck => 1
  | Pc.innerCheck => 1
  | Pc.pacing => 1
  | Pc.outerCheck => 0
  | Pc.done => 0

/-- What a worker that was at `pc0` with `running` false may have added to its
history by the time it is at `pc1`: no window opened and no inner loop test
passed, every sleep between 1 and 1000 ms, and no more connection attempts and
sleeps than `pc0` leaves. -/
def WindDown (pc0 pc1 : Pc) (new : List Event) : Prop :=
  (∀ e ∈ new, e ≠ Event.checkOuter true ∧ e ≠ Event.checkInner true ∧
    ∀ d, e = Event.sleep d → 1 ≤ d ∧ d ≤ 1000) ∧
  new.countP Event.isConnect + pc1.connectsLeft ≤ pc0.connectsLeft ∧
  new.countP Event.isSleep + pc1.sleepsLeft ≤ pc0.sleepsLeft

/-- SIGINT while worker 0 is inside an iteration: the worker opened a window
and passed the inner loop test, then the flag goes false. -/
def flipSchedule : List Action :=
  [Action.worker 0 serverUp, Action.worker 0 serverUp, Action.signal]

/-- Worker 0 after `stopSchedule` in the plain program with rate 5. -/
def stoppedWorker : Worker :=
  (run (boot Variant.plain ([5].map spawn)) stopSchedule).workers.headD (spawn 0)

/-- Worker 0 after `flipSchedule` in the latency program with rate 5. -/
def flippedWorker : Worker :=
  (run (boot Variant.latency ([5].map spawn)) flipSchedule).workers.headD (spawn 0)

/-! ## The supervisor: splitting the rate -/

/-- The spawn loop appends one fresh worker for every value of `i` from its
start up to `numThreads - 1`. -/
theorem spawnLoop_eq (ratePerThread numThreads : Int) :
    ∀ (n : Nat) (i : Int) (threads : List Worker), (numThreads - i).toNat = n →
      spawnLoop ratePerThread numThreads i threads
        = threads ++ List.replicate n (spawn ratePerThread) := by
  intro n
  induction n with
  | zero =>
    intro i threads h
    rw [spawnLoop]
    have : ¬ i < numThreads := by omega
    simp [this]
  | succ n ih =>
    intro i threads h
    rw [spawnLoop]
    have hlt : i < numThreads := by omega
    have hn : (numThreads - (i + 1)).toNat = n := by omega
    simp [hlt, ih (i + 1) _ hn, List.replicate_succ]

/-- Once the division has a value, `testConnection` starts from `numThreads`
fresh workers with that rate (none when `numThreads` is negative). -/
theorem testConnection_eq (v : Variant) (desiredRate numThreads ratePerThread : Int)
    (h : intDiv desiredRate numThreads = some ratePerThread) :
    testConnection v desiredRate numThreads
      = some (boot v (List.replicate numThreads.toNat (spawn ratePerThread))) := by
  simp [testConnection, h, spawnLoop_eq ratePerThread numThreads numThreads.toNat 0 [] (by simp)]

/-- For a non-negative dividend and a positive divisor the `int` division is
defined and is the floor of the quotient. -/
theorem intDiv_of_pos (a b : Int) (ha : 0 ≤ a) (hb : 1 ≤ b) :
    intDiv a b = some (Int.fdiv a b) := by
  have h1 : ¬ (b = 0 ∨ (a = INT_MIN ∧ b = -1)) := by omega
  have h2 : a.tdiv b = a / b := Int.tdiv_eq_ediv ha (by omega)
  have h3 : Int.fdiv a b = a / b := Int.fdiv_eq_ediv a (by omega)
  simp [intDiv, h1, h2, h3]

/-- C1: for a desired rate `R ≥ 0` and `N ≥ 1` workers, `testConnection` (either
program) spawns exactly `N` workers, each with `desiredRate = floor(R / N)`; the
aggregate target `N * floor(R / N)` lies in `(R - N, R]` and equals `R` exactly
when `N` divides `R`. -/
theorem testConnection_splits_rate (v : Variant) (R N : Int) (hR : 0 ≤ R) (hN : 1 ≤ N) :
    ∃ s, testConnection v R N = some s ∧
      (s.workers.length : Int) = N ∧
      (∀ w ∈ s.workers, w.desiredRate = Int.fdiv R N) ∧
      R - N < N * Int.fdiv R N ∧ N * Int.fdiv R N ≤ R ∧
      (N * Int.fdiv R N = R ↔ N ∣ R) := by
  have hdiv := intDiv_of_pos R N hR hN
  refine ⟨_, testConnection_eq v R N _ hdiv, ?_, ?_, ?_⟩
  · simp [boot]; omega
  · intro w hw
    simp [boot] at hw
    rw [hw.2]; rfl
  · have h3 : Int.fdiv R N = R / N := Int.fdiv_eq_ediv R (by omega)
    rw [h3]
    have hm := Int.emod_add_ediv R N
    have hlt := Int.emod_lt_of_pos R (show 0 < N by omega)
    have hnn := Int.emod_nonneg R (show N ≠ 0 by omega)
    refine ⟨by omega, by omega, ?_⟩
    constructor
    · intro h; exact ⟨R / N, h.symm⟩
    · intro h; exact Int.mul_ediv_cancel' h

/-- C1 at `R = 10`, `N = 4` in the plain program: four workers with rate 2,
aggregate 8. -/
theorem testConnection_splits_rate_witness :
    ∃ s, testConnection Variant.plain 10 4 = some s ∧
      (s.workers.length : Int) = 4 ∧
      (∀ w ∈ s.workers, w.desiredRate = Int.fdiv 10 4) ∧
      (10 : Int) - 4 < 4 * Int.fdiv 10 4 ∧ 4 * Int.fdiv 10 4 ≤ 10 ∧
      (4 * Int.fdiv 10 4 = 10 ↔ (4 : Int) ∣ 10) :=
  testConnection_splits_rate Variant.plain 10 4 (by decide) (by decide)

/-! ## Runs and invariants -/

/-- Running a schedule that starts with `a` is stepping by `a` and running the
rest. -/
theorem run_cons (s : State) (a : Action) (sched : List Action) :
    run s (a :: sched) = run (step s a) sched := rfl

/-- A worker never writes `running`. -/
theorem workerThread_running (v : Variant) (clock : Int) (env : Env) (sh : Shared) (w : Worker) :
    (workerThread v clock env sh w).2.running = sh.running := by
  unfold workerThread
  split <;> (try split) <;> (try split) <;> rfl

/-- The reporting loop never writes `running`. -/
theorem reporterStep_running (v : Variant) (clock : Int) (allDone : Bool) (sh : Shared)
    (r : Reporter) : (reporterStep v clock allDone sh r).2.running = sh.running := by
  unfold reporterStep
  split
  · split <;> rfl
  · split
    · simp only []
      split <;> rfl
    · rfl
  · rfl
  · split <;> rfl
  · rfl
  · rfl

/-- A property of one worker, the flag and the clock holds in every reachable
state as soon as it holds at the start, is kept by the worker's own steps, and
survives the flag going false and the clock advancing. -/
theorem workers_invariant (P : Bool → Int → Worker → Prop)
    (hsig : ∀ r c w, P r c w → P false c w)
    (htick : ∀ r c (d : Nat) w, P r c w → P r (c + d) w)
    (hstep : ∀ v c env sh w, P sh.running c w → P sh.running c (workerThread v c env sh w).1)
    (sched : List Action) :
    ∀ s : State, (∀ w ∈ s.workers, P s.shared.running s.clock w) →
      ∀ w ∈ (run s sched).workers, P (run s sched).shared.running (run s sched).clock w := by
  induction sched with
  | nil => intro s h; exact h
  | cons a sched ih =>
    intro s h
    rw [run_cons]
    apply ih
    cases a with
    | tick ns => intro w hw; exact htick _ _ ns w (h w hw)
    | signal => intro w hw; exact hsig _ _ w (h w hw)
    | reporter =>
      simp only [step]
      split
      · exact h
      · intro w hw
        simp only [reporterStep_running]
        exact h w hw
    | worker i env =>
      simp only [step]
      split
      · exact h
      · rename_i w0 hw0
        split
        · exact h
        · intro w hw
          simp only [workerThread_running]
          have hmem : w0 ∈ s.workers := List.getElem?_mem hw0
          rcases List.mem_or_eq_of_mem_set hw with h1 | h1
          · exact h w h1
          · rw [h1]; exact hstep _ _ _ _ _ (h w0 hmem)

/-! ## The quota of a window -/

/-- A fresh worker satisfies the quota invariant. -/
theorem quotaInv_spawn (rate : Int) : QuotaInv (spawn rate) := by
  simp [QuotaInv, spawn, windowIncs]

/-- A counted cycle adds one to the count of the current window. -/
theorem windowIncs_served (reply : Bool) (c : ConnectResult) (log : List Event) :
    windowIncs (Event.incTotal :: Event.redisFree ::
      ((if reply = true then [Event.freeReply, Event.command, Event.connect c]
        else [Event.command, Event.connect c]) ++ log))
    = match windowIncs log with
      | [] => []
      | n :: cs => (n + 1) :: cs := by
  cases reply <;> simp [windowIncs]

/-- Every step of a worker keeps the quota invariant. -/
theorem quotaInv_step (v : Variant) (clock : Int) (env : Env) (sh : Shared) (w : Worker)
    (h : QuotaInv w) : QuotaInv (workerThread v clock env sh w).1 := by
  obtain ⟨h0, hmax, hatt, hwin, hall, hneg⟩ := h
  unfold workerThread
  split
  · split
    · simp_all [QuotaInv, windowIncs]
    · simp_all [QuotaInv, windowIncs]
  · split
    · split
      · simp_all [QuotaInv, windowIncs]
      · simp_all [QuotaInv, windowIncs]
    · simp_all [QuotaInv, windowIncs]
  · split
    · simp_all [QuotaInv, windowIncs]
      omega
    · rename_i hpc _
      have hlt := hatt hpc
      have hmaxe : max w.desiredRate 0 = w.desiredRate := by omega
      obtain ⟨cs, hcs⟩ : ∃ cs, windowIncs w.log = w.connections.toNat :: cs := by
        rcases hwin with ⟨_, _, h1 | h1⟩ | h1
        · rw [hpc] at h1; cases h1
        · rw [hpc] at h1; cases h1
        · exact h1
      simp only [QuotaInv, windowIncs_served, hcs]
      refine ⟨by omega, by omega, ?_, ?_, ?_, ?_⟩
      · cases v <;> simp
      · right
        refine ⟨cs, ?_⟩
        congr 1
        omega
      · intro c hc
        simp only [List.mem_cons] at hc
        rcases hc with hc | hc
        · subst hc; omega
        · exact hall c (by rw [hcs]; exact List.mem_cons_of_mem _ hc)
      · intro hd; omega
  · simp_all [QuotaInv, windowIncs]
  · split
    · simp_all [QuotaInv, windowIncs]
    · simp_all [QuotaInv, windowIncs]
  · split
    · simp_all [QuotaInv, windowIncs]
    · simp_all [QuotaInv, windowIncs]
  · split
    · simp_all [QuotaInv, windowIncs]
    · simp_all [QuotaInv, windowIncs]
  · simp_all [QuotaInv, windowIncs]

/-- C3: in every reachable state of either program, for workers of any rates
and under any schedule, each worker has `connections ≤ max(desiredRate, 0)`;
`connections` is the number of `totalConnections++` of the current window; no
window of its history holds more than `max(desiredRate, 0)` increments; and a
worker with `desiredRate ≤ 0` has never attempted a connection nor incremented
the counter. -/
theorem window_quota_is_ceiling (v : Variant) (rates : List Int) (sched : List Action) :
    ∀ w ∈ (run (boot v (rates.map spawn)) sched).workers,
      w.connections ≤ max w.desiredRate 0 ∧
      ((windowIncs w.log).headD 0 : Int) = w.connections ∧
      (∀ c ∈ windowIncs w.log, (c : Int) ≤ max w.desiredRate 0) ∧
      (w.desiredRate ≤ 0 →
        ∀ e ∈ w.log, e ≠ Event.incTotal ∧ ∀ r, e ≠ Event.connect r) := by
  intro w hw
  have h := workers_invariant (fun _ _ w => QuotaInv w) (fun _ _ _ h => h) (fun _ _ _ _ h => h)
    (fun v c env sh w h => quotaInv_step v c env sh w h) sched (boot v (rates.map spawn))
    (by
      intro w hw
      simp only [boot, List.mem_map] at hw
      obtain ⟨r, _, rfl⟩ := hw
      exact quotaInv_spawn r) w hw
  obtain ⟨h0, hmax, hatt, hwin, hall, hneg⟩ := h
  refine ⟨hmax, ?_, hall, hneg⟩
  rcases hwin with ⟨h1, h2, _⟩ | ⟨cs, h1⟩
  · simp [h1, h2]
  · simp [h1, h0]

/-! ## One inner-loop iteration -/

/-- C4: an inner-loop iteration whose connect succeeds (either program) issues
exactly one command, releases the reply exactly when there is one, closes the
connection, adds one to `connections` and performs one `totalConnections++`
(the counter goes up by exactly 1 unless it wraps at `INT_MAX`), whether or not
a reply came; and what remains of the iteration (the latency update and the
break test) changes neither count and connects, commands, frees and closes
nothing more. -/
theorem successful_connect_counts_once (v : Variant) (clock : Int) (env : Env) (sh : Shared)
    (w : Worker) (hpc : w.pc = Pc.attempt) (hok : env.connect.failed = false) :
    let r := workerThread v clock env sh w
    (r.1.log = [Event.incTotal, Event.redisFree]
        ++ (if env.reply = true then [Event.freeReply] else [])
        ++ [Event.command, Event.connect env.connect] ++ w.log ∧
     r.1.connections = w.connections + 1 ∧
     r.2.totalConnections = wrapInt32 (sh.totalConnections + 1) ∧
     (INT_MIN ≤ sh.totalConnections ∧ sh.totalConnections < INT_MAX →
       r.2.totalConnections = sh.totalConnections + 1) ∧
     r.1.wakeAt = w.wakeAt ∧ r.1.pc.afterCount = true) ∧
    (∀ (clock2 : Int) (env2 : Env) (sh2 : Shared) (w2 : Worker), w2.pc.afterCount = true →
      let r2 := workerThread v clock2 env2 sh2 w2
      r2.1.connections = w2.connections ∧ r2.2.totalConnections = sh2.totalConnections ∧
      (r2.1.log = w2.log ∨ r2.1.log = Event.addLatency w2.latency :: w2.log) ∧
      (r2.1.pc.afterCount = true ∨ r2.1.pc = Pc.innerCheck ∨ r2.1.pc = Pc.pacing)) := by
  intro r
  constructor
  · have hr : r = workerThread v clock env sh w := rfl
    simp [workerThread, hpc, hok] at hr
    rw [hr]
    refine ⟨?_, rfl, rfl, ?_, rfl, ?_⟩
    · cases env.reply <;> simp
    · intro h
      simp only [wrapInt32, INT_MIN, INT_MAX] at *
      omega
    · cases v <;> rfl
  · intro clock2 env2 sh2 w2 h2 r2
    have hr : r2 = workerThread v clock2 env2 sh2 w2 := rfl
    unfold workerThread at hr
    split at hr <;> simp_all [Pc.afterCount]
    · split <;> simp
    · split <;> simp

/-! ## A server that cannot be reached -/

/-- A property of the state holds after a schedule when it holds at the start and
every step by an admitted action keeps it. -/
theorem run_invariant (I : State → Prop) (A : Action → Prop)
    (hstep : ∀ s a, A a → I s → I (step s a)) (sched : List Action) :
    (∀ a ∈ sched, A a) → ∀ s, I s → I (run s sched) := by
  induction sched with
  | nil => intro _ s h; exact h
  | cons a sched ih =>
    intro hA s h
    rw [run_cons]
    exact ih (fun b hb => hA b (List.mem_cons_of_mem _ hb)) _
      (hstep s a (hA a (List.mem_cons_self _ _)) h)

/-- What holds of every worker still does after one of them is replaced by a
worker of which it holds. -/
theorem forall_mem_set {P : Worker → Prop} {l : List Worker} {i : Nat} {w w' : Worker}
    (hl : ∀ x ∈ l, P x) (hw : l[i]? = some w) (hP : P w → P w') :
    ∀ x ∈ l.set i w', P x := by
  intro x hx
  rcases List.mem_or_eq_of_mem_set hx with h1 | h1
  · exact hl x h1
  · rw [h1]; exact hP (hl w (List.getElem?_mem hw))

/-- A worker step whose connect fails leaves the counter and the number of
completed cycles alone, and returns only on reading `running` as false. -/
theorem workerThread_failed (v : Variant) (clock : Int) (env : Env) (sh : Shared) (w : Worker)
    (hfail : env.connect.failed = true) :
    (workerThread v clock env sh w).2.totalConnections = sh.totalConnections ∧
    completedCycles (workerThread v clock env sh w).1 = completedCycles w ∧
    ((workerThread v clock env sh w).1.pc = Pc.done →
      sh.running = false ∧ Event.checkOuter false ∈ (workerThread v clock env sh w).1.log ∨
      w.pc = Pc.done ∧ (workerThread v clock env sh w).1.log = w.log) := by
  unfold workerThread
  split <;> (try split) <;> (try split) <;> simp_all [completedCycles]

/-- The division of the plain reporter is defined once `seconds` was
non-negative before `seconds++`. -/
theorem intDiv_seconds (c seconds : Int) (h : 0 ≤ seconds) :
    intDiv c (seconds + 1) = some (c.tdiv (seconds + 1)) := by
  have h1 : ¬ (seconds + 1 = 0 ∨ (c = INT_MIN ∧ seconds + 1 = -1)) := by omega
  simp [intDiv, h1]

/-- A step of the reporting loop from a zero counter reports zero. -/
theorem reporterStep_failed (v : Variant) (clock : Int) (allDone : Bool) (sh : Shared)
    (r : Reporter) (h1 : sh.totalConnections = 0) (h2 : r.connectionsPerSecond = 0)
    (h3 : 0 ≤ r.seconds) (h4 : ∀ x ∈ r.obtained, x = 0)
    (h5 : ∀ rep ∈ r.output, rep.connections = 0) (h6 : r.pc ≠ RPc.undefined) :
    (reporterStep v clock allDone sh r).2.totalConnections = 0 ∧
    (reporterStep v clock allDone sh r).1.connectionsPerSecond = 0 ∧
    0 ≤ (reporterStep v clock allDone sh r).1.seconds ∧
    (∀ x ∈ (reporterStep v clock allDone sh r).1.obtained, x = 0) ∧
    (∀ rep ∈ (reporterStep v clock allDone sh r).1.output, rep.connections = 0) ∧
    (reporterStep v clock allDone sh r).1.pc ≠ RPc.undefined := by
  unfold reporterStep
  split
  · split
    · exact ⟨h1, h2, h3, h4, h5, by simp⟩
    · exact ⟨h1, h2, h3, h4, h5, by simp⟩
  · split
    · simp only [intDiv_seconds _ _ h3]
      refine ⟨trivial, h1, by omega, ?_, ?_, by simp⟩
      · intro x hx
        simp only [List.mem_cons] at hx
        rcases hx with hx | hx
        · rw [hx, h1]
        · exact h4 x hx
      · intro rep hrep
        simp only [List.mem_append, List.mem_singleton] at hrep
        rcases hrep with hrep | hrep
        · exact h5 rep hrep
        · rw [hrep]; exact h1
    · refine ⟨rfl, h1, h3, ?_, h5, by simp⟩
      intro x hx
      simp only [List.mem_cons] at hx
      rcases hx with hx | hx
      · rw [hx, h1]
      · exact h4 x hx
  · refine ⟨h1, h2, h3, h4, ?_, by simp⟩
    intro rep hrep
    simp only [List.mem_append, List.mem_singleton] at hrep
    rcases hrep with hrep | hrep
    · exact h5 rep hrep
    · rw [hrep]; exact h2
  · split
    · exact ⟨h1, h2, h3, h4, h5, by simp⟩
    · exact ⟨h1, h2, h3, h4, h5, h6⟩
  · exact ⟨h1, h2, h3, h4, h5, h6⟩
  · exact ⟨h1, h2, h3, h4, h5, h6⟩

/-- Every step with a failing connect keeps `FailInv`. -/
theorem failInv_step (s : State) (a : Action) (ha : a.connectFails = true) (h : FailInv s) :
    FailInv (step s a) := by
  obtain ⟨h1, h2, h3, h4, h5, h6, h7⟩ := h
  cases a with
  | tick ns => exact ⟨h1, h2, h3, h4, h5, h6, h7⟩
  | signal =>
    refine ⟨h1, h2, h3, h4, h5, h6, ?_⟩
    intro w hw
    exact ⟨(h7 w hw).1, fun hd => ⟨rfl, ((h7 w hw).2 hd).2⟩⟩
  | reporter =>
    simp only [step]
    split
    · exact ⟨h1, h2, h3, h4, h5, h6, h7⟩
    · obtain ⟨g1, g2, g3, g4, g5, g6⟩ := reporterStep_failed s.variant s.clock
        (s.workers.all (fun w => w.pc = Pc.done)) s.shared s.reporter h1 h2 h3 h4 h5 h6
      refine ⟨g1, g2, g3, g4, g5, g6, ?_⟩
      simp only [reporterStep_running]
      exact h7
  | worker i env =>
    simp only [step]
    split
    · exact ⟨h1, h2, h3, h4, h5, h6, h7⟩
    · rename_i w0 hw0
      split
      · exact ⟨h1, h2, h3, h4, h5, h6, h7⟩
      · have hf := workerThread_failed s.variant s.clock env s.shared w0 ha
        refine ⟨by simpa [hf.1] using h1, h2, h3, h4, h5, h6, ?_⟩
        simp only [workerThread_running]
        refine forall_mem_set h7 hw0 ?_
        intro hw
        refine ⟨by rw [hf.2.1]; exact hw.1, ?_⟩
        intro hd
        rcases hf.2.2 hd with h8 | h8
        · exact h8
        · rw [h8.2]; exact hw.2 h8.1

/-- The initial state satisfies `FailInv`. -/
theorem failInv_boot (v : Variant) (rates : List Int) : FailInv (boot v (rates.map spawn)) := by
  refine ⟨rfl, rfl, le_refl _, by simp [boot], by simp [boot], by simp [boot], ?_⟩
  intro w hw
  simp only [boot, List.mem_map] at hw
  obtain ⟨r, _, rfl⟩ := hw
  simp [spawn, completedCycles]

/-- C5: an inner-loop iteration whose connect fails (null handle or error flag)
only backs off 10 ms and goes back to the loop test: the history gains the
failed connect and the sleep and nothing else (no command, no close), and
`connections`, `totalConnections`, `totalLatency` and `running` are unchanged.
Hence under every schedule in which all connects fail the counter is 0, every
value the reporter obtains and every count it prints is 0, no division is
undefined, no worker completes a cycle, and a worker has returned only after
reading `running` as false. -/
theorem failed_connect_counts_nothing :
    (∀ (v : Variant) (clock : Int) (env : Env) (sh : Shared) (w : Worker),
      w.pc = Pc.attempt → env.connect.failed = true →
      let r := workerThread v clock env sh w
      r.1.log = Event.sleep 10 :: Event.connect env.connect :: w.log ∧
      r.1.connections = w.connections ∧ r.2 = sh ∧
      r.1.wakeAt = clock + 10 * 1000000 ∧ r.1.pc = Pc.innerCheck) ∧
    (∀ (v : Variant) (rates : List Int) (sched : List Action), allConnectsFail sched = true →
      let s := run (boot v (rates.map spawn)) sched
      s.shared.totalConnections = 0 ∧
      (∀ x ∈ s.reporter.obtained, x = 0) ∧
      (∀ rep ∈ s.reporter.output, rep.connections = 0) ∧
      s.reporter.pc ≠ RPc.undefined ∧
      (∀ w ∈ s.workers, completedCycles w = 0 ∧
        (w.pc = Pc.done → s.shared.running = false ∧ Event.checkOuter false ∈ w.log))) := by
  constructor
  · intro v clock env sh w hpc hfail r
    have hr : r = workerThread v clock env sh w := rfl
    simp [workerThread, hpc, hfail] at hr
    rw [hr]
    exact ⟨rfl, rfl, rfl, rfl, rfl⟩
  · intro v rates sched hall s
    have hA : ∀ a ∈ sched, a.connectFails = true := by
      simpa [allConnectsFail, List.all_eq_true] using hall
    obtain ⟨h1, _, _, h4, h5, h6, h7⟩ :=
      run_invariant FailInv (fun a => a.connectFails = true) failInv_step sched hA _
        (failInv_boot v rates)
    exact ⟨h1, h4, h5, h6, h7⟩

/-! ## Pacing -/

/-- Elapsed milliseconds are non-negative on a clock that has not gone back. -/
theorem elapsedMillis_nonneg (t0 t1 : Int) (h : t0 ≤ t1) : 0 ≤ elapsedMillis t0 t1 :=
  Int.tdiv_nonneg (by omega) (by decide)

/-- C10: at the end of a window (either program), with `e` the elapsed
milliseconds measured from `start` on a clock that has not gone back
(`e ≥ 0`): when `e < 1000` the worker requests a sleep of exactly `1000 - e`
ms, which lies in `1..1000` and pads the window to `e + (1000 - e) = max(e,
1000)`; when `e ≥ 1000` it does not sleep; either way it goes back to the
outer loop test and touches no shared cell. -/
theorem pacing_pads_window (v : Variant) (clock : Int) (env : Env) (sh : Shared) (w : Worker)
    (hpc : w.pc = Pc.pacing) (hmono : w.start ≤ clock) :
    let e := elapsedMillis w.start clock
    let r := workerThread v clock env sh w
    0 ≤ e ∧
    (e < 1000 →
      pacingSleep e = some (1000 - e) ∧ r.1.log = Event.sleep (1000 - e) :: w.log ∧
      1 ≤ 1000 - e ∧ 1000 - e ≤ 1000 ∧ e + (1000 - e) = max e 1000 ∧
      r.1.wakeAt = clock + (1000 - e) * 1000000) ∧
    (1000 ≤ e →
      pacingSleep e = none ∧ r.1.log = w.log ∧ r.1.wakeAt = w.wakeAt ∧ max e 1000 = e) ∧
    r.1.pc = Pc.outerCheck ∧ r.2 = sh := by
  intro e r
  have he : 0 ≤ e := elapsedMillis_nonneg _ _ hmono
  refine ⟨he, ?_, ?_, ?_, ?_⟩
  · intro hlt
    have hp : pacingSleep e = some (1000 - e) := by simp [pacingSleep, hlt]
    have hp2 : pacingSleep (elapsedMillis w.start clock) = some (1000 - e) := hp
    refine ⟨hp, ?_, by omega, by omega, by omega, ?_⟩
    · simp only [r, workerThread, hpc, hp2]
    · simp only [r, workerThread, hpc, hp2]
  · intro hge
    have hp : pacingSleep e = none := by simp [pacingSleep]; omega
    have hp2 : pacingSleep (elapsedMillis w.start clock) = none := hp
    refine ⟨hp, ?_, ?_, by omega⟩
    · simp only [r, workerThread, hpc, hp2]
    · simp only [r, workerThread, hpc, hp2]
  · simp only [r, workerThread, hpc]
    split <;> rfl
  · simp only [r, workerThread, hpc]
    split <;> rfl

/-! ## The shared counter -/

/-- Replacing one worker changes a sum over the workers by the difference of
the two terms. -/
theorem sum_map_set (f : Worker → Nat) :
    ∀ (l : List Worker) (i : Nat) (w w' : Worker), l[i]? = some w →
      ((l.set i w').map f).sum + f w = (l.map f).sum + f w' := by
  intro l
  induction l with
  | nil => intro i w w' h; simp at h
  | cons x xs ih =>
    intro i w w' h
    cases i with
    | zero =>
      simp only [List.getElem?_cons_zero, Option.some.injEq] at h
      subst h
      simp only [List.set_cons_zero, List.map_cons, List.sum_cons]
      omega
    | succ i =>
      simp only [List.getElem?_cons_succ] at h
      have := ih i w w' h
      simp only [List.set_cons_succ, List.map_cons, List.sum_cons]
      omega

/-- A worker step leaves the counter and the worker's completed cycles alone,
or performs one `totalConnections++` and completes one cycle. -/
theorem workerThread_count (v : Variant) (clock : Int) (env : Env) (sh : Shared) (w : Worker) :
    ((workerThread v clock env sh w).2.totalConnections = sh.totalConnections ∧
      completedCycles (workerThread v clock env sh w).1 = completedCycles w) ∨
    ((workerThread v clock env sh w).2.totalConnections = wrapInt32 (sh.totalConnections + 1) ∧
      completedCycles (workerThread v clock env sh w).1 = completedCycles w + 1) := by
  unfold workerThread
  split <;> (try split) <;> (try split) <;> simp_all [completedCycles]

/-- A step of the reporting loop leaves the counter alone, or it is the exchange:
it obtains the counter's value and leaves 0. -/
theorem reporterStep_count (v : Variant) (clock : Int) (allDone : Bool) (sh : Shared)
    (r : Reporter) :
    ((reporterStep v clock allDone sh r).1.obtained = r.obtained ∧
      (reporterStep v clock allDone sh r).2.totalConnections = sh.totalConnections ∧
      r.pc ≠ RPc.body) ∨
    ((reporterStep v clock allDone sh r).1.obtained = sh.totalConnections :: r.obtained ∧
      (reporterStep v clock allDone sh r).2.totalConnections = 0 ∧ r.pc = RPc.body) := by
  unfold reporterStep
  split
  · split <;> simp_all
  · split
    · simp only []
      split <;> simp_all
    · simp_all
  · simp_all
  · split <;> simp_all
  · simp_all
  · simp_all

/-- A step keeps `CountInv` when it is not a worker step at `INT_MAX`. -/
theorem countInv_step (s : State) (a : Action)
    (hlt : ∀ i env, a = Action.worker i env → s.shared.totalConnections < INT_MAX)
    (h : CountInv s) : CountInv (step s a) := by
  obtain ⟨h1, h2, h3⟩ := h
  cases a with
  | tick ns => exact ⟨h1, h2, h3⟩
  | signal => exact ⟨h1, h2, h3⟩
  | reporter =>
    simp only [step]
    split
    · exact ⟨h1, h2, h3⟩
    · rcases reporterStep_count s.variant s.clock (s.workers.all (fun w => w.pc = Pc.done))
        s.shared s.reporter with ⟨g1, g2, _⟩ | ⟨g1, g2, _⟩
      · simp only [CountInv, totalCompleted, g1, g2]
        exact ⟨h1, h2, h3⟩
      · simp only [CountInv, totalCompleted, g1, g2, List.sum_cons]
        refine ⟨by decide, by decide, ?_⟩
        simp only [totalCompleted] at h3
        omega
  | worker i env =>
    have hlt := hlt i env rfl
    simp only [step]
    split
    · exact ⟨h1, h2, h3⟩
    · rename_i w0 hw0
      split
      · exact ⟨h1, h2, h3⟩
      · have hs := sum_map_set completedCycles s.workers i w0
          (workerThread s.variant s.clock env s.shared w0).1 hw0
        simp only [totalCompleted] at h3
        rcases workerThread_count s.variant s.clock env s.shared w0 with ⟨g1, g2⟩ | ⟨g1, g2⟩
        · simp only [CountInv, totalCompleted, g1]
          refine ⟨h1, h2, ?_⟩
          omega
        · have hw : wrapInt32 (s.shared.totalConnections + 1) = s.shared.totalConnections + 1 := by
            simp only [wrapInt32, INT_MIN, INT_MAX] at *
            omega
          simp only [CountInv, totalCompleted, g1, hw]
          simp only [INT_MIN, INT_MAX] at *
          refine ⟨by omega, by omega, ?_⟩
          omega

/-- A schedule without a wrap keeps `CountInv`. -/
theorem countInv_run : ∀ (sched : List Action) (s : State), CountInv s →
    counterNeverWraps s sched = true → CountInv (run s sched) := by
  intro sched
  induction sched with
  | nil => intro s h _; exact h
  | cons a sched ih =>
    intro s h hw
    simp only [counterNeverWraps, Bool.and_eq_true] at hw
    rw [run_cons]
    refine ih _ (countInv_step s a ?_ h) hw.2
    intro i env ha
    subst ha
    simpa using hw.1

/-- C2: with `totalConnections++` and `totalConnections.exchange(0)` as atomic
steps, in every reachable state of every interleaving of any number of workers
and the reporter (either program) in which no increment wrapped the `int`, the
sum of the values the reporter has obtained from `exchange` plus the current
value of the counter equals the number of completed cycles of all workers; and
the reporter's step at the exchange obtains the counter's value and leaves the
counter at 0, while any other step of the reporter leaves it alone. -/
theorem counter_conserves_cycles (v : Variant) (rates : List Int) (sched : List Action)
    (hwrap : counterNeverWraps (boot v (rates.map spawn)) sched = true) :
    let s := run (boot v (rates.map spawn)) sched
    let s' := step s Action.reporter
    s.reporter.obtained.sum + s.shared.totalConnections = (totalCompleted s : Int) ∧
    (s.reporter.pc = RPc.body ∧ s.reporter.wakeAt ≤ s.clock →
      s'.reporter.obtained = s.shared.totalConnections :: s.reporter.obtained ∧
      s'.shared.totalConnections = 0) ∧
    (¬ (s.reporter.pc = RPc.body ∧ s.reporter.wakeAt ≤ s.clock) →
      s'.reporter.obtained = s.reporter.obtained ∧
      s'.shared.totalConnections = s.shared.totalConnections) := by
  intro s s'
  have h0 : CountInv (boot v (rates.map spawn)) := by
    refine ⟨by simp [boot, INT_MIN], by simp [boot, INT_MAX], ?_⟩
    simp [boot, totalCompleted, completedCycles, spawn, Function.comp_def]
  refine ⟨(countInv_run sched _ h0 hwrap).2.2, ?_, ?_⟩
  · intro ⟨hpc, hwake⟩
    have hs' : s' = step s Action.reporter := rfl
    simp only [step, show ¬ s.clock < s.reporter.wakeAt by omega, if_false] at hs'
    rcases reporterStep_count s.variant s.clock (s.workers.all (fun w => w.pc = Pc.done))
        s.shared s.reporter with ⟨_, _, g3⟩ | ⟨g1, g2, _⟩
    · exact absurd hpc g3
    · rw [hs']; exact ⟨g1, g2⟩
  · intro hn
    have hs' : s' = step s Action.reporter := rfl
    simp only [step] at hs'
    by_cases hw : s.clock < s.reporter.wakeAt
    · simp only [hw, if_true] at hs'
      rw [hs']; exact ⟨rfl, rfl⟩
    · simp only [hw, if_false] at hs'
      rcases reporterStep_count s.variant s.clock (s.workers.all (fun w => w.pc = Pc.done))
        s.shared s.reporter with ⟨g1, g2, _⟩ | ⟨_, _, g3⟩
      · rw [hs']; exact ⟨g1, g2⟩
      · exact absurd ⟨g3, by omega⟩ hn

/-! ## The plain reporter -/

/-- Every step of the plain reporting loop keeps `RateInv`. -/
theorem rateInv_step (clock : Int) (allDone : Bool) (sh : Shared) (r : Reporter)
    (h : RateInv r) : RateInv (reporterStep Variant.plain clock allDone sh r).1 := by
  obtain ⟨h1, h0, h2, h3, h4⟩ := h
  unfold reporterStep
  split
  · split
    · exact ⟨by simp, by simp, h2, h3, h4⟩
    · exact ⟨by simp, by simp, h2, h3, h4⟩
  · have hs : 0 ≤ r.seconds := by omega
    simp only [intDiv_seconds _ _ hs]
    refine ⟨by simp, by simp, by simp [h2], by simp [h3], ?_⟩
    intro k c hk
    simp only [List.reverse_cons] at hk
    rcases Nat.lt_trichotomy k r.output.length with hlt | heq | hgt
    · rw [List.getElem?_append_left (by simp [h3]; exact hlt)] at hk
      rw [List.getElem?_append_left hlt]
      exact h4 k c hk
    · rw [List.getElem?_append_right (by simp [h3, heq])] at hk
      rw [List.getElem?_append_right (by omega)]
      simp [h3, heq] at hk ⊢
      subst hk
      rw [h2]
      exact ⟨rfl, rfl⟩
    · rw [List.getElem?_append_right (by simp [h3]; omega)] at hk
      simp [h3] at hk
      have : k - r.output.length ≠ 0 := by omega
      obtain ⟨n, hn⟩ := Nat.exists_eq_succ_of_ne_zero this
      rw [hn] at hk
      simp at hk
  · rename_i hpc; exact absurd hpc h0
  · split
    · exact ⟨by simp, by simp, h2, h3, h4⟩
    · exact ⟨h1, h0, h2, h3, h4⟩
  · exact ⟨h1, h0, h2, h3, h4⟩
  · exact ⟨h1, h0, h2, h3, h4⟩

/-- The program does not change while it runs. -/
theorem step_variant (s : State) (a : Action) : (step s a).variant = s.variant := by
  cases a with
  | tick ns => rfl
  | signal => rfl
  | reporter => simp only [step]; split <;> rfl
  | worker i env =>
    simp only [step]
    split
    · rfl
    · split <;> rfl

/-- Only the main thread's own step changes its record. -/
theorem step_reporter_of_ne (s : State) (a : Action) (h : a ≠ Action.reporter) :
    (step s a).reporter = s.reporter := by
  cases a with
  | tick ns => rfl
  | signal => rfl
  | reporter => exact absurd rfl h
  | worker i env =>
    simp only [step]
    split
    · rfl
    · split <;> rfl

/-- C9: in the plain program, under every schedule, no division of the
reporter is undefined, `seconds` equals the number of reports printed, and the
report number `k + 1` shows the count `c` obtained by that report's exchange
and, as the average, `c / (k + 1)` truncated toward zero: the last interval's
count over the elapsed seconds, with a divisor `k + 1 ≥ 1` that is never
zero. -/
theorem plain_average_divides_last_count (rates : List Int) (sched : List Action) :
    let r := (run (boot Variant.plain (rates.map spawn)) sched).reporter
    r.pc ≠ RPc.undefined ∧ r.seconds = (r.output.length : Int) ∧
    r.obtained.length = r.output.length ∧
    ∀ (k : Nat) (c : Int), r.obtained.reverse[k]? = some c →
      r.output[k]? = some (Report.rate c (c.tdiv ((k : Int) + 1))) ∧
      intDiv c ((k : Int) + 1) = some (c.tdiv ((k : Int) + 1)) := by
  intro r
  have h := run_invariant (fun s => s.variant = Variant.plain ∧ RateInv s.reporter)
    (fun _ => True)
    (by
      intro s a _ ⟨hv, hr⟩
      refine ⟨by rw [step_variant, hv], ?_⟩
      by_cases ha : a = Action.reporter
      · subst ha
        simp only [step]
        split
        · exact hr
        · rw [hv]; exact rateInv_step _ _ _ _ hr
      · rw [step_reporter_of_ne s a ha]; exact hr)
    sched (fun _ _ => trivial) (boot Variant.plain (rates.map spawn))
    ⟨rfl, by simp [RateInv, boot]⟩
  obtain ⟨_, h1, _, h2, h3, h4⟩ := h
  refine ⟨h1, h2, h3, ?_⟩
  intro k c hk
  exact ⟨h4 k c hk, intDiv_seconds c k (by omega)⟩

/-! ## Shutdown -/

/-- A history has seen the stop when its latest event is one or the rest has. -/
theorem sawStop_cons (e : Event) (log : List Event) :
    sawStop (e :: log) = (e.isStop || sawStop log) := by
  simp [sawStop]

/-- The latest event follows the stop exactly when the earlier history has
seen it. -/
theorem afterStop_cons (e : Event) (log : List Event) :
    afterStop (e :: log) = if sawStop log = true then e :: afterStop log else [] := rfl

/-- Nothing follows a stop that was not seen. -/
theorem afterStop_of_not_sawStop (log : List Event) (h : sawStop log = false) :
    afterStop log = [] := by
  cases log with
  | nil => rfl
  | cons e rest =>
    rw [sawStop_cons] at h
    simp only [Bool.or_eq_false_iff] at h
    simp [afterStop_cons, h.2]

/-- Every step of a worker keeps `StopInv`. -/
theorem stopInv_step (v : Variant) (clock : Int) (env : Env) (sh : Shared) (w : Worker)
    (h : StopInv sh.running clock w) :
    StopInv sh.running clock (workerThread v clock env sh w).1 := by
  obtain ⟨h1, h2, h3⟩ := h
  have key : w.pc ≠ Pc.pacing → w.pc ≠ Pc.outerCheck → w.pc ≠ Pc.done →
      sawStop w.log = false := by
    intro a b c
    rcases h3 with h3 | ⟨h3, _⟩ | ⟨h3, _⟩ | ⟨h3, _⟩
    · exact h3
    · exact absurd h3 a
    · exact absurd h3 b
    · exact absurd h3 c
  unfold workerThread
  split
  · rename_i hpc
    split
    · rename_i hrun
      have hns : sawStop w.log = false := by
        cases hs : sawStop w.log
        · rfl
        · have := h2 hs; rw [this] at hrun; cases hrun
      refine ⟨le_refl _, ?_, Or.inl ?_⟩ <;> simp [sawStop_cons, Event.isStop, hns]
    · rename_i hrun
      refine ⟨h1, fun _ => by simpa using hrun, Or.inr (Or.inr (Or.inr ⟨rfl, ?_⟩))⟩
      rcases h3 with h3 | ⟨h3, _⟩ | ⟨_, h3⟩ | ⟨h3, _⟩
      · left; simp [afterStop_cons, h3]
      · rw [hpc] at h3; cases h3
      · cases hs : sawStop w.log
        · left; simp [afterStop_cons, hs]
        · rcases h3 with h3 | ⟨d, h3, hd⟩
          · right; left; simp [afterStop_cons, hs, h3]
          · right; right; exact ⟨d, by simp [afterStop_cons, hs, h3], hd⟩
      · rw [hpc] at h3; cases h3
  · rename_i hpc
    have hns := key (by simp [hpc]) (by simp [hpc]) (by simp [hpc])
    split
    · split
      · rename_i hrun
        refine ⟨h1, ?_, Or.inl ?_⟩ <;> simp [sawStop_cons, Event.isStop, hns]
      · rename_i hrun
        refine ⟨h1, fun _ => by simpa using hrun, Or.inr (Or.inl ⟨rfl, ?_⟩)⟩
        simp [afterStop_cons, hns]
    · exact ⟨h1, h2, Or.inl hns⟩
  · rename_i hpc
    have hns := key (by simp [hpc]) (by simp [hpc]) (by simp [hpc])
    split
    · refine ⟨h1, ?_, Or.inl ?_⟩ <;> simp [sawStop_cons, Event.isStop, hns]
    · refine ⟨h1, ?_, Or.inl ?_⟩ <;> cases env.reply <;>
        simp [sawStop_cons, Event.isStop, hns]
  · rename_i hpc
    have hns := key (by simp [hpc]) (by simp [hpc]) (by simp [hpc])
    exact ⟨h1, h2, Or.inl hns⟩
  · rename_i hpc
    have hns := key (by simp [hpc]) (by simp [hpc]) (by simp [hpc])
    split
    · refine ⟨h1, ?_, Or.inl ?_⟩ <;> simp [sawStop_cons, Event.isStop, hns]
    · exact ⟨h1, h2, Or.inl hns⟩
  · rename_i hpc
    have hns := key (by simp [hpc]) (by simp [hpc]) (by simp [hpc])
    split
    · exact ⟨h1, h2, Or.inl hns⟩
    · exact ⟨h1, h2, Or.inl hns⟩
  · rename_i hpc
    have he : 0 ≤ elapsedMillis w.start clock := Int.tdiv_nonneg (by omega) (by decide)
    split
    · rename_i ms hms
      simp only [pacingSleep] at hms
      split at hms
      · simp only [Option.some.injEq] at hms
        refine ⟨h1, ?_, ?_⟩
        · simpa [sawStop_cons, Event.isStop] using h2
        · cases hs : sawStop w.log
          · left; simp [sawStop_cons, Event.isStop, hs]
          · right; right; left
            refine ⟨rfl, Or.inr ⟨ms, ?_, by omega, by omega⟩⟩
            rcases h3 with h3 | ⟨_, h3⟩ | ⟨h3, _⟩ | ⟨h3, _⟩
            · rw [hs] at h3; cases h3
            · simp [afterStop_cons, hs, h3]
            · rw [hpc] at h3; cases h3
            · rw [hpc] at h3; cases h3
      · cases hms
    · refine ⟨h1, h2, ?_⟩
      cases hs : sawStop w.log
      · left; rfl
      · right; right; left
        refine ⟨rfl, Or.inl ?_⟩
        rcases h3 with h3 | ⟨_, h3⟩ | ⟨h3, _⟩ | ⟨h3, _⟩
        · rw [hs] at h3; cases h3
        · exact h3
        · rw [hpc] at h3; cases h3
        · rw [hpc] at h3; cases h3
  · exact ⟨h1, h2, h3⟩

/-- `StopInv` holds of every worker in every reachable state. -/
theorem stopInv_run (v : Variant) (rates : List Int) (sched : List Action) :
    ∀ w ∈ (run (boot v (rates.map spawn)) sched).workers,
      StopInv (run (boot v (rates.map spawn)) sched).shared.running
        (run (boot v (rates.map spawn)) sched).clock w := by
  refine workers_invariant StopInv ?_ ?_ stopInv_step sched _ ?_
  · intro r c w ⟨h1, _, h3⟩
    exact ⟨h1, fun _ => rfl, h3⟩
  · intro r c d w ⟨h1, h2, h3⟩
    exact ⟨by omega, h2, h3⟩
  · intro w hw
    simp only [boot, List.mem_map] at hw
    obtain ⟨r, _, rfl⟩ := hw
    exact ⟨le_refl _, by simp [spawn, sawStop], Or.inl (by simp [spawn, sawStop])⟩

/-- C7 fails as stated: in the plain program started with rate 5 and one
worker, SIGINT arrives 2 ms into a window; the worker reads `running` as false
in the inner loop test, leaves the loop and then sleeps the 998 ms that remain
of its window, far more than 10 ms. -/
theorem shutdown_sleep_exceeds_backoff :
    ∃ s0, testConnection Variant.plain 5 1 = some s0 ∧
      (run s0 stopSchedule).workers.map (fun w => sleepsAfterStop w.log) = [[998]] ∧
      ¬ SleepsAfterStopWithin 10 (run s0 stopSchedule) := by
  refine ⟨_, testConnection_eq Variant.plain 5 1 5 (by decide), by decide!, ?_⟩
  intro h
  have h998 := h ((run (boot Variant.plain (List.replicate (1 : Int).toNat (spawn 5)))
    stopSchedule).workers.headD (spawn 0)) (by decide!) 998 (by decide!)
  omega

/-- Every step of a worker keeps `ClockInv`. -/
theorem clockInv_step (v : Variant) (clock : Int) (env : Env) (sh : Shared) (w : Worker)
    (h : ClockInv clock w) : ClockInv clock (workerThread v clock env sh w).1 := by
  obtain ⟨h1, h2⟩ := h
  unfold workerThread
  split
  · split
    · exact ⟨le_refl _, h2⟩
    · exact ⟨h1, h2⟩
  · split
    · split
      · exact ⟨h1, h2⟩
      · exact ⟨h1, h2⟩
    · exact ⟨h1, h2⟩
  · split
    · exact ⟨h1, by show clock + 10 * 1000000 ≤ clock + 1000000000; omega⟩
    · exact ⟨h1, h2⟩
  · exact ⟨h1, h2⟩
  · split
    · exact ⟨h1, h2⟩
    · exact ⟨h1, h2⟩
  · split
    · exact ⟨h1, h2⟩
    · exact ⟨h1, h2⟩
  · have he : 0 ≤ elapsedMillis w.start clock := elapsedMillis_nonneg _ _ h1
    split
    · rename_i ms hms
      simp only [pacingSleep] at hms
      split at hms
      · simp only [Option.some.injEq] at hms
        exact ⟨h1, by show clock + ms * 1000000 ≤ clock + 1000000000; omega⟩
      · cases hms
    · exact ⟨h1, h2⟩
  · exact ⟨h1, h2⟩

/-- `ClockInv` holds of every worker in every reachable state. -/
theorem clockInv_run (v : Variant) (rates : List Int) (sched : List Action) :
    ∀ w ∈ (run (boot v (rates.map spawn)) sched).workers,
      ClockInv (run (boot v (rates.map spawn)) sched).clock w := by
  refine workers_invariant (fun _ c w => ClockInv c w) ?_ ?_
    (fun v c env sh w h => clockInv_step v c env sh w h) sched _ ?_
  · intro r c w h; exact h
  · intro r c d w ⟨h1, h2⟩
    exact ⟨by omega, by omega⟩
  · intro w hw
    simp only [boot, List.mem_map] at hw
    obtain ⟨r, _, rfl⟩ := hw
    exact ⟨le_refl _, by simp [spawn, boot]⟩

/-- No transition sets `running` back to true. -/
theorem step_running_false (s : State) (a : Action) (h : s.shared.running = false) :
    (step s a).shared.running = false := by
  cases a with
  | tick ns => exact h
  | signal => rfl
  | reporter =>
    simp only [step]
    split
    · exact h
    · simp only [reporterStep_running]; exact h
  | worker i env =>
    simp only [step]
    split
    · exact h
    · split
      · exact h
      · simp only [workerThread_running]; exact h

/-- Once false, `running` is false after every schedule. -/
theorem run_running_false (sched : List Action) :
    ∀ s : State, s.shared.running = false → (run s sched).shared.running = false := by
  induction sched with
  | nil => intro s h; exact h
  | cons a sched ih =>
    intro s h
    rw [run_cons]
    exact ih _ (step_running_false s a h)

/-- A step of a worker that finds `running` false never leads to a connection
attempt, never moves away from the return and, unless it is a compare-exchange
that fails, moves closer to it; it opens no window, passes no inner loop test,
connects and commands only inside an iteration already begun, and sleeps only
the 10 ms backoff of that iteration or the pacing sleep of 1 to 1000 ms. -/
theorem workerThread_winds_down (v : Variant) (clock : Int) (env : Env) (sh : Shared)
    (w : Worker) (hrun : sh.running = false) (hstart : w.start ≤ clock) :
    (workerThread v clock env sh w).1.pc ≠ Pc.attempt ∧
    (workerThread v clock env sh w).1.pc.rank ≤ w.pc.rank ∧
    (w.pc ≠ Pc.done → w.pc ≠ Pc.latCas →
      (workerThread v clock env sh w).1.pc.rank < w.pc.rank) ∧
    (w.pc = Pc.latCas → sh.totalLatency = w.current → env.casOk = true →
      (workerThread v clock env sh w).1.pc.rank < w.pc.rank) ∧
    ∃ new, (workerThread v clock env sh w).1.log = new ++ w.log ∧
      ∀ e ∈ new, e ≠ Event.checkOuter true ∧ e ≠ Event.checkInner true ∧
        (∀ c, e = Event.connect c → w.pc = Pc.attempt) ∧
        (e = Event.command → w.pc = Pc.attempt) ∧
        (∀ d, e = Event.sleep d →
          (w.pc = Pc.attempt ∧ d = 10) ∨ (w.pc = Pc.pacing ∧ 1 ≤ d ∧ d ≤ 1000)) := by
  unfold workerThread
  split
  · rename_i hpc
    simp only [hrun, Bool.false_eq_true, if_false, hpc]
    exact ⟨by simp, by simp [Pc.rank], by simp [Pc.rank], by simp,
      [Event.checkOuter false], rfl, by simp⟩
  · rename_i hpc
    split
    · simp only [hrun, Bool.false_eq_true, if_false, hpc]
      exact ⟨by simp, by simp [Pc.rank], by simp [Pc.rank], by simp,
        [Event.checkInner false], rfl, by simp⟩
    · simp only [hpc]
      exact ⟨by simp, by simp [Pc.rank], by simp [Pc.rank], by simp, [], rfl, by simp⟩
  · rename_i hpc
    split
    · simp only [hpc]
      exact ⟨by simp, by simp [Pc.rank], by simp [Pc.rank], by simp,
        [Event.sleep 10, Event.connect env.connect], rfl, by simp⟩
    · simp only [hpc]
      refine ⟨by cases v <;> simp, by cases v <;> simp [Pc.rank],
        by cases v <;> simp [Pc.rank], by simp,
        Event.incTotal :: Event.redisFree ::
          (if env.reply = true then [Event.freeReply, Event.command, Event.connect env.connect]
           else [Event.command, Event.connect env.connect]), by simp, ?_⟩
      cases env.reply <;> simp
  · rename_i hpc
    simp only [hpc]
    exact ⟨by simp, by simp [Pc.rank], by simp [Pc.rank], by simp, [], rfl, by simp⟩
  · rename_i hpc
    split
    · simp only [hpc]
      exact ⟨by simp, by simp [Pc.rank], by simp, by simp [Pc.rank],
        [Event.addLatency w.latency], rfl, by simp⟩
    · rename_i hcas
      simp only [hpc]
      refine ⟨by simp, by simp [Pc.rank], by simp, ?_, [], rfl, by simp⟩
      intro _ h1 h2
      exact absurd ⟨h1, h2⟩ hcas
  · rename_i hpc
    split
    · simp only [hpc]
      exact ⟨by simp, by simp [Pc.rank], by simp [Pc.rank], by simp, [], rfl, by simp⟩
    · simp only [hpc]
      exact ⟨by simp, by simp [Pc.rank], by simp [Pc.rank], by simp, [], rfl, by simp⟩
  · rename_i hpc
    have he : 0 ≤ elapsedMillis w.start clock := elapsedMillis_nonneg _ _ hstart
    split
    · rename_i ms hms
      simp only [pacingSleep] at hms
      split at hms
      · simp only [Option.some.injEq] at hms
        simp only [hpc]
        refine ⟨by simp, by simp [Pc.rank], by simp [Pc.rank], by simp,
          [Event.sleep ms], rfl, ?_⟩
        intro e he'
        simp only [List.mem_singleton] at he'
        subst he'
        refine ⟨by simp, by simp, by simp, by simp, ?_⟩
        intro d hd
        simp only [Event.sleep.injEq] at hd
        right
        exact ⟨trivial, by omega, by omega⟩
      · cases hms
    · simp only [hpc]
      exact ⟨by simp, by simp [Pc.rank], by simp [Pc.rank], by simp, [], rfl, by simp⟩
  · rename_i hpc
    simp only [hpc]
    exact ⟨by simp, by simp [Pc.rank], by simp, by simp, [], rfl, by simp⟩

/-- The transition of a worker that is not asleep is its `workerThread` step. -/
theorem step_worker_awake (s : State) (i : Nat) (env : Env) (w : Worker)
    (hw : s.workers[i]? = some w) (hwake : w.wakeAt ≤ s.clock) :
    step s (Action.worker i env) =
      { s with workers := s.workers.set i (workerThread s.variant s.clock env s.shared w).1,
               shared := (workerThread s.variant s.clock env s.shared w).2 } := by
  have h : ¬ s.clock < w.wakeAt := by omega
  simp [step, hw, h]

/-- With `running` false the pacing step leads to the outer loop test and the
outer loop test to the return. -/
theorem workerThread_exits (v : Variant) (clock : Int) (env : Env) (sh : Shared) (w : Worker)
    (hrun : sh.running = false) :
    (w.pc = Pc.pacing → (workerThread v clock env sh w).1.pc = Pc.outerCheck) ∧
    (w.pc = Pc.outerCheck → (workerThread v clock env sh w).1.pc = Pc.done) ∧
    (w.pc = Pc.done → (workerThread v clock env sh w).1.pc = Pc.done) := by
  refine ⟨?_, ?_, ?_⟩
  · intro hpc
    simp only [workerThread, hpc]
    split <;> rfl
  · intro hpc
    simp [workerThread, hpc, hrun]
  · intro hpc
    simp [workerThread, hpc]

/-- A second of waiting and one step of worker `i` under a false flag. -/
theorem wake_and_step (s : State) (i : Nat) (w : Worker) (env : Env)
    (hw : s.workers[i]? = some w) (hrun : s.shared.running = false)
    (hclk : ClockInv s.clock w) :
    ∃ w', (run s [Action.tick 1000000000, Action.worker i env]).workers[i]? = some w' ∧
      (run s [Action.tick 1000000000, Action.worker i env]).shared.running = false ∧
      ClockInv (run s [Action.tick 1000000000, Action.worker i env]).clock w' ∧
      (w.pc = Pc.pacing → w'.pc = Pc.outerCheck) ∧
      (w.pc = Pc.outerCheck → w'.pc = Pc.done) ∧
      (w.pc = Pc.done → w'.pc = Pc.done) := by
  have hlen : i < s.workers.length := (List.getElem?_eq_some.1 hw).1
  have hc1 : ClockInv (step s (Action.tick 1000000000)).clock w :=
    ⟨by have := hclk.1; show w.start ≤ s.clock + 1000000000; omega,
     by have := hclk.2; show w.wakeAt ≤ s.clock + 1000000000 + 1000000000; omega⟩
  have hw1 : (step s (Action.tick 1000000000)).workers[i]? = some w := hw
  have hwake1 : w.wakeAt ≤ (step s (Action.tick 1000000000)).clock := hclk.2
  have hrun1 : (step s (Action.tick 1000000000)).shared.running = false := hrun
  have hrun : run s [Action.tick 1000000000, Action.worker i env]
      = step (step s (Action.tick 1000000000)) (Action.worker i env) := rfl
  rw [hrun, step_worker_awake _ i env w hw1 hwake1]
  refine ⟨_, List.getElem?_set_self hlen, ?_, clockInv_step _ _ env _ w hc1,
    workerThread_exits _ _ env _ w hrun1⟩
  show (workerThread _ _ env _ w).2.running = false
  rw [workerThread_running]
  exact hrun1

/-- A worker at the pacing step or the outer loop test returns within two of
its steps once `running` is false. -/
theorem exit_of_stopped (s : State) (i : Nat) (w : Worker) (env1 env2 : Env)
    (hw : s.workers[i]? = some w) (hrun : s.shared.running = false)
    (hpc : w.pc = Pc.pacing ∨ w.pc = Pc.outerCheck ∨ w.pc = Pc.done)
    (hclk : ClockInv s.clock w) :
    ∃ w2, (run s (exitSchedule i env1 env2)).workers[i]? = some w2 ∧ w2.pc = Pc.done := by
  obtain ⟨w1, hw1, hrun1, hclk1, p1, p2, p3⟩ := wake_and_step s i w env1 hw hrun hclk
  obtain ⟨w2, hw2, _, _, _, q2, q3⟩ := wake_and_step _ i w1 env2 hw1 hrun1 hclk1
  have hsplit : run s (exitSchedule i env1 env2)
      = run (run s [Action.tick 1000000000, Action.worker i env1])
          [Action.tick 1000000000, Action.worker i env2] := rfl
  rw [hsplit]
  refine ⟨w2, hw2, ?_⟩
  rcases hpc with h | h | h
  · exact q2 (p1 h)
  · exact q3 (p2 h)
  · exact q3 (p3 h)

/-- Under a false flag, a step with a compare-exchange that does not fail
spuriously lowers `stepsLeft`. -/
theorem stepsLeft_step (v : Variant) (clock : Int) (env : Env) (sh : Shared) (w : Worker)
    (hrun : sh.running = false) (hcas : env.casOk = true) :
    stepsLeft (workerThread v clock env sh w).2 (workerThread v clock env sh w).1
      ≤ stepsLeft sh w - 1 := by
  unfold workerThread
  split
  · rename_i hpc
    simp [hrun, stepsLeft, hpc]
  · rename_i hpc
    split
    · simp [hrun, stepsLeft, hpc]
    · simp [stepsLeft, hpc]
  · rename_i hpc
    split
    · simp [stepsLeft, hpc]
    · cases v <;> simp [stepsLeft, hpc]
  · rename_i hpc
    simp [stepsLeft, hpc]
  · rename_i hpc
    split
    · rename_i h
      simp [stepsLeft, hpc, h.1]
    · rename_i h
      have hne : ¬ sh.totalLatency = w.current := fun e => h ⟨e, hcas⟩
      simp [stepsLeft, hpc, hne]
  · rename_i hpc
    split
    · simp [stepsLeft, hpc]
    · simp [stepsLeft, hpc]
  · rename_i hpc
    split
    · simp [stepsLeft, hpc]
    · simp [stepsLeft, hpc]
  · rename_i hpc
    simp [stepsLeft, hpc]

/-- A second of waiting and one step of worker `i` lowers its `stepsLeft`. -/
theorem drain_round (s : State) (i : Nat) (w : Worker) (env : Env)
    (hw : s.workers[i]? = some w) (hrun : s.shared.running = false)
    (hclk : ClockInv s.clock w) (hcas : env.casOk = true) :
    ∃ w', (run s [Action.tick 1000000000, Action.worker i env]).workers[i]? = some w' ∧
      (run s [Action.tick 1000000000, Action.worker i env]).shared.running = false ∧
      ClockInv (run s [Action.tick 1000000000, Action.worker i env]).clock w' ∧
      stepsLeft (run s [Action.tick 1000000000, Action.worker i env]).shared w'
        ≤ stepsLeft s.shared w - 1 := by
  have hlen : i < s.workers.length := (List.getElem?_eq_some.1 hw).1
  have hc1 : ClockInv (step s (Action.tick 1000000000)).clock w :=
    ⟨by have := hclk.1; show w.start ≤ s.clock + 1000000000; omega,
     by have := hclk.2; show w.wakeAt ≤ s.clock + 1000000000 + 1000000000; omega⟩
  have hw1 : (step s (Action.tick 1000000000)).workers[i]? = some w := hw
  have hwake1 : w.wakeAt ≤ (step s (Action.tick 1000000000)).clock := hclk.2
  have hrun1 : (step s (Action.tick 1000000000)).shared.running = false := hrun
  have hsplit : run s [Action.tick 1000000000, Action.worker i env]
      = step (step s (Action.tick 1000000000)) (Action.worker i env) := rfl
  rw [hsplit, step_worker_awake _ i env w hw1 hwake1]
  refine ⟨_, List.getElem?_set_self hlen, ?_, clockInv_step _ _ env _ w hc1,
    stepsLeft_step _ _ env _ w hrun1 hcas⟩
  show (workerThread _ _ env _ w).2.running = false
  rw [workerThread_running]
  exact hrun1

/-- After `n` rounds of `drainSchedule` the worker has `n` steps less to go. -/
theorem drain_steps (i : Nat) (env : Env) (hcas : env.casOk = true) :
    ∀ (n : Nat) (s : State) (w : Worker), s.workers[i]? = some w →
      s.shared.running = false → ClockInv s.clock w →
      ∃ w', (run s (drainSchedule i env n)).workers[i]? = some w' ∧
        stepsLeft (run s (drainSchedule i env n)).shared w' ≤ stepsLeft s.shared w - n := by
  intro n
  induction n with
  | zero =>
    intro s w hw _ _
    exact ⟨w, hw, le_refl _⟩
  | succ n ih =>
    intro s w hw hrun hclk
    obtain ⟨w1, hw1, hrun1, hclk1, hle1⟩ := drain_round s i w env hw hrun hclk hcas
    obtain ⟨w', hw', hle⟩ := ih _ w1 hw1 hrun1 hclk1
    have hsplit : run s (drainSchedule i env (n + 1))
        = run (run s [Action.tick 1000000000, Action.worker i env])
            (drainSchedule i env n) := rfl
    rw [hsplit]
    exact ⟨w', hw', by omega⟩

/-- A worker with no step left has returned. -/
theorem stepsLeft_eq_zero (sh : Shared) (w : Worker) (h : stepsLeft sh w = 0) :
    w.pc = Pc.done := by
  unfold stepsLeft at h
  split at h <;> first | assumption | (split at h <;> omega) | omega

/-- No worker is more than 7 steps from the return. -/
theorem stepsLeft_le (sh : Shared) (w : Worker) : stepsLeft sh w ≤ 7 := by
  unfold stepsLeft
  split <;> first | omega | (split <;> omega)

/-- What one step of a worker adds to its history under a false flag stays
within what its program point leaves. -/
theorem workerThread_windDown (v : Variant) (clock : Int) (env : Env) (sh : Shared)
    (w : Worker) (hrun : sh.running = false) (hstart : w.start ≤ clock) :
    ∃ new, (workerThread v clock env sh w).1.log = new ++ w.log ∧
      WindDown w.pc (workerThread v clock env sh w).1.pc new := by
  unfold workerThread
  split
  · rename_i hpc
    simp only [hrun, Bool.false_eq_true, if_false, hpc]
    exact ⟨[Event.checkOuter false], rfl, by simp [WindDown, Pc.connectsLeft, Pc.sleepsLeft,
      Event.isConnect, Event.isSleep]⟩
  · rename_i hpc
    split
    · simp only [hrun, Bool.false_eq_true, if_false, hpc]
      exact ⟨[Event.checkInner false], rfl, by simp [WindDown, Pc.connectsLeft, Pc.sleepsLeft,
        Event.isConnect, Event.isSleep]⟩
    · simp only [hpc]
      exact ⟨[], rfl, by simp [WindDown, Pc.connectsLeft, Pc.sleepsLeft]⟩
  · rename_i hpc
    split
    · simp only [hpc]
      exact ⟨[Event.sleep 10, Event.connect env.connect], rfl,
        by simp [WindDown, Pc.connectsLeft, Pc.sleepsLeft, Event.isConnect, Event.isSleep]⟩
    · simp only [hpc]
      refine ⟨Event.incTotal :: Event.redisFree ::
          (if env.reply = true then [Event.freeReply, Event.command, Event.connect env.connect]
           else [Event.command, Event.connect env.connect]), by simp, ?_⟩
      cases env.reply <;> cases v <;>
        simp [WindDown, Pc.connectsLeft, Pc.sleepsLeft, Event.isConnect, Event.isSleep]
  · rename_i hpc
    simp only [hpc]
    exact ⟨[], rfl, by simp [WindDown, Pc.connectsLeft, Pc.sleepsLeft]⟩
  · rename_i hpc
    split
    · simp only [hpc]
      exact ⟨[Event.addLatency w.latency], rfl,
        by simp [WindDown, Pc.connectsLeft, Pc.sleepsLeft, Event.isConnect, Event.isSleep]⟩
    · simp only [hpc]
      exact ⟨[], rfl, by simp [WindDown, Pc.connectsLeft, Pc.sleepsLeft]⟩
  · rename_i hpc
    split
    · simp only [hpc]
      exact ⟨[], rfl, by simp [WindDown, Pc.connectsLeft, Pc.sleepsLeft]⟩
    · simp only [hpc]
      exact ⟨[], rfl, by simp [WindDown, Pc.connectsLeft, Pc.sleepsLeft]⟩
  · rename_i hpc
    have he : 0 ≤ elapsedMillis w.start clock := elapsedMillis_nonneg _ _ hstart
    split
    · rename_i ms hms
      simp only [pacingSleep] at hms
      split at hms
      · simp only [Option.some.injEq] at hms
        simp only [hpc]
        refine ⟨[Event.sleep ms], rfl, ?_⟩
        simp only [WindDown, Pc.connectsLeft, Pc.sleepsLeft, List.mem_singleton]
        refine ⟨?_, by simp [Event.isConnect], by simp [Event.isSleep]⟩
        intro e he'
        subst he'
        refine ⟨by simp, by simp, ?_⟩
        intro d hd
        simp only [Event.sleep.injEq] at hd
        omega
      · cases hms
    · simp only [hpc]
      exact ⟨[], rfl, by simp [WindDown, Pc.connectsLeft, Pc.sleepsLeft]⟩
  · rename_i hpc
    simp only [hpc]
    exact ⟨[], rfl, by simp [WindDown, Pc.connectsLeft, Pc.sleepsLeft]⟩

/-- Adding nothing stays within every budget. -/
theorem windDown_nil (pc : Pc) : WindDown pc pc [] := by
  simp [WindDown]

/-- Winding down composes. -/
theorem windDown_trans (pc0 pc1 pc2 : Pc) (new1 new2 : List Event)
    (h1 : WindDown pc0 pc1 new1) (h2 : WindDown pc1 pc2 new2) :
    WindDown pc0 pc2 (new2 ++ new1) := by
  obtain ⟨a1, b1, c1⟩ := h1
  obtain ⟨a2, b2, c2⟩ := h2
  refine ⟨?_, ?_, ?_⟩
  · intro e he
    rcases List.mem_append.1 he with h | h
    · exact a2 e h
    · exact a1 e h
  · rw [List.countP_append]; omega
  · rw [List.countP_append]; omega

/-- Whatever transition the process takes under a false flag, worker `i` winds
down. -/
theorem step_windDown (s : State) (a : Action) (i : Nat) (w : Worker)
    (hw : s.workers[i]? = some w) (hrun : s.shared.running = false)
    (hstart : w.start ≤ s.clock) :
    ∃ w1 new, (step s a).workers[i]? = some w1 ∧ (step s a).shared.running = false ∧
      w1.start ≤ (step s a).clock ∧ w1.log = new ++ w.log ∧ WindDown w.pc w1.pc new := by
  have same : ∀ s' : State, s'.workers = s.workers → s'.shared.running = false →
      s.clock ≤ s'.clock →
      ∃ w1 new, s'.workers[i]? = some w1 ∧ s'.shared.running = false ∧
        w1.start ≤ s'.clock ∧ w1.log = new ++ w.log ∧ WindDown w.pc w1.pc new := by
    intro s' h1 h2 h3
    exact ⟨w, [], by rw [h1]; exact hw, h2, by omega, rfl, windDown_nil _⟩
  cases a with
  | tick ns => exact same _ rfl hrun (by show s.clock ≤ s.clock + ns; omega)
  | signal => exact same _ rfl rfl (le_refl _)
  | reporter =>
    simp only [step]
    split
    · exact same _ rfl hrun (le_refl _)
    · exact same _ rfl (by simp only [reporterStep_running]; exact hrun) (le_refl _)
  | worker j env =>
    simp only [step]
    split
    · exact same _ rfl hrun (le_refl _)
    · rename_i wj hwj
      split
      · exact same _ rfl hrun (le_refl _)
      · have hrun' : (workerThread s.variant s.clock env s.shared wj).2.running = false := by
          rw [workerThread_running]; exact hrun
        by_cases hij : j = i
        · subst hij
          have hwj' : wj = w := by rw [hw] at hwj; exact (Option.some.inj hwj).symm
          subst hwj'
          have hlen : j < s.workers.length := (List.getElem?_eq_some.1 hw).1
          obtain ⟨new, hlog, hwd⟩ :=
            workerThread_windDown s.variant s.clock env s.shared wj hrun hstart
          have hc := (clockInv_step s.variant s.clock env s.shared wj
            ⟨hstart, by omega⟩).1
          exact ⟨_, new, List.getElem?_set_self hlen, hrun', hc, hlog, hwd⟩
        · refine ⟨w, [], ?_, hrun', hstart, rfl, windDown_nil _⟩
          show (s.workers.set j _)[i]? = some w
          rw [List.getElem?_set_ne hij]
          exact hw

/-- Whatever schedule follows once `running` is false, worker `i` winds down:
its history only grows, by events within the budget of the program point it
was at. -/
theorem run_windDown (i : Nat) (more : List Action) :
    ∀ (s : State) (w : Worker), s.workers[i]? = some w → s.shared.running = false →
      w.start ≤ s.clock →
      ∃ w1 new, (run s more).workers[i]? = some w1 ∧ w1.log = new ++ w.log ∧
        WindDown w.pc w1.pc new := by
  induction more with
  | nil =>
    intro s w hw _ _
    exact ⟨w, [], hw, rfl, windDown_nil _⟩
  | cons a more ih =>
    intro s w hw hrun hstart
    obtain ⟨w1, new1, hw1, hrun1, hstart1, hlog1, hwd1⟩ := step_windDown s a i w hw hrun hstart
    obtain ⟨w2, new2, hw2, hlog2, hwd2⟩ := ih _ w1 hw1 hrun1 hstart1
    rw [run_cons]
    refine ⟨w2, new2 ++ new1, hw2, ?_, windDown_trans _ _ _ _ _ hwd1 hwd2⟩
    rw [hlog2, hlog1, List.append_assoc]

/-- After its first read of `running` as false a worker has done at most the
pacing sleep and the outer loop test, the flag is false, and the worker is at
the pacing step, at the outer loop test, or has returned. -/
theorem stop_tail_shape (v : Variant) (rates : List Int) (sched : List Action) :
    ∀ w ∈ (run (boot v (rates.map spawn)) sched).workers,
      StopTail (afterStop w.log) ∧
      (sawStop w.log = true →
        (run (boot v (rates.map spawn)) sched).shared.running = false ∧
        (w.pc = Pc.pacing ∨ w.pc = Pc.outerCheck ∨ w.pc = Pc.done)) := by
  intro w hw
  obtain ⟨_, h2, h3⟩ := stopInv_run v rates sched w hw
  constructor
  · rcases h3 with h3 | ⟨_, h3⟩ | ⟨_, h3 | h3⟩ | ⟨_, h3 | h3 | h3⟩
    · exact Or.inl (afterStop_of_not_sawStop _ h3)
    · exact Or.inl h3
    · exact Or.inl h3
    · exact Or.inr (Or.inl h3)
    · exact Or.inl h3
    · exact Or.inr (Or.inr (Or.inl h3))
    · exact Or.inr (Or.inr (Or.inr h3))
  · intro hs
    refine ⟨h2 hs, ?_⟩
    rcases h3 with h3 | ⟨h3, _⟩ | ⟨h3, _⟩ | ⟨h3, _⟩
    · rw [hs] at h3; cases h3
    · exact Or.inl h3
    · exact Or.inr (Or.inl h3)
    · exact Or.inr (Or.inr h3)

/-- A tail of that shape holds at most one sleep, of at most 1000 ms. -/
theorem stopTail_sleeps (l : List Event) (hl : StopTail l) :
    (∀ d ∈ l.filterMap Event.sleepMs, d ≤ 1000) ∧
    (l.filterMap Event.sleepMs).length ≤ 1 := by
  rcases hl with h | ⟨d, h, _, hd⟩ | h | ⟨d, h, _, hd⟩
  · subst h; simp
  · subst h; simp [Event.sleepMs, hd]
  · subst h; simp [Event.sleepMs]
  · subst h; simp [Event.sleepMs, hd]

/-- C7 as amended: in every reachable state `s` (either program, any rates, any
schedule):

* every sleep a worker started after it first read `running` as false lasts at
  most 1000 ms and there is at most one; after that read the worker did
  nothing but the pacing sleep of the window it was in (1 to 1000 ms) and the
  outer loop test that makes it return, and any sleep it is in ends within a
  second;
* a worker that has read `running` as false returns within two of its own
  steps (`exitSchedule`);
* once `running` is false it stays false, and every step of a worker reaches
  no connection attempt, never moves away from the return and moves closer to
  it unless it is a failing compare-exchange; the step opens no window, passes
  no inner loop test, connects and commands only inside the iteration already
  begun, and sleeps only that iteration's 10 ms backoff or the pacing sleep of
  1 to 1000 ms; left alone with a compare-exchange that does not fail spuriously, the
  worker returns within 7 of its own steps (`drainSchedule`);
* and whatever schedule follows once `running` is false, a worker adds to its
  history no opened window, no passed inner loop test, at most one connection
  attempt (none unless it was inside an iteration) and at most two sleeps of 1
  to 1000 ms each (at most one unless it was inside an iteration). -/
theorem shutdown_sleep_within_window (v : Variant) (rates : List Int) (sched : List Action) :
    let s := run (boot v (rates.map spawn)) sched
    SleepsAfterStopWithin 1000 s ∧
    (∀ w ∈ s.workers,
      StopTail (afterStop w.log) ∧ (sleepsAfterStop w.log).length ≤ 1 ∧
      (sawStop w.log = true → s.shared.running = false) ∧
      w.wakeAt ≤ s.clock + 1000000000) ∧
    (∀ (i : Nat) (w : Worker) (env1 env2 : Env), s.workers[i]? = some w →
      sawStop w.log = true →
      ∃ w2, (run s (exitSchedule i env1 env2)).workers[i]? = some w2 ∧ w2.pc = Pc.done) ∧
    (s.shared.running = false →
      (∀ more, (run s more).shared.running = false) ∧
      (∀ (i : Nat) (w : Worker) (env : Env), s.workers[i]? = some w →
        (workerThread s.variant s.clock env s.shared w).1.pc ≠ Pc.attempt ∧
        (workerThread s.variant s.clock env s.shared w).1.pc.rank ≤ w.pc.rank ∧
        (w.pc ≠ Pc.done → w.pc ≠ Pc.latCas →
          (workerThread s.variant s.clock env s.shared w).1.pc.rank < w.pc.rank) ∧
        (w.pc = Pc.latCas → s.shared.totalLatency = w.current → env.casOk = true →
          (workerThread s.variant s.clock env s.shared w).1.pc.rank < w.pc.rank) ∧
        (∃ new, (workerThread s.variant s.clock env s.shared w).1.log = new ++ w.log ∧
          ∀ e ∈ new, e ≠ Event.checkOuter true ∧ e ≠ Event.checkInner true ∧
            (∀ c, e = Event.connect c → w.pc = Pc.attempt) ∧
            (e = Event.command → w.pc = Pc.attempt) ∧
            (∀ d, e = Event.sleep d →
              (w.pc = Pc.attempt ∧ d = 10) ∨ (w.pc = Pc.pacing ∧ 1 ≤ d ∧ d ≤ 1000))) ∧
        (env.casOk = true →
          ∃ w', (run s (drainSchedule i env 7)).workers[i]? = some w' ∧ w'.pc = Pc.done)) ∧
      (∀ (i : Nat) (w : Worker) (more : List Action), s.workers[i]? = some w →
        ∃ w1 new, (run s more).workers[i]? = some w1 ∧ w1.log = new ++ w.log ∧
          WindDown w.pc w1.pc new ∧
          new.countP Event.isConnect ≤ 1 ∧ new.countP Event.isSleep ≤ 2 ∧
          (w.pc ≠ Pc.attempt →
            new.countP Event.isConnect = 0 ∧ new.countP Event.isSleep ≤ 1))) := by
  intro s
  have shape := stop_tail_shape v rates sched
  have clk := clockInv_run v rates sched
  refine ⟨?_, ?_, ?_, ?_⟩
  · intro w hw d hd
    exact (stopTail_sleeps _ (shape w hw).1).1 d hd
  · intro w hw
    exact ⟨(shape w hw).1, (stopTail_sleeps _ (shape w hw).1).2,
      fun hs => ((shape w hw).2 hs).1, (clk w hw).2⟩
  · intro i w env1 env2 hw hs
    have hmem : w ∈ s.workers := List.getElem?_mem hw
    obtain ⟨hrun, hpc⟩ := (shape w hmem).2 hs
    exact exit_of_stopped s i w env1 env2 hw hrun hpc (clk w hmem)
  · intro hrun
    refine ⟨fun more => run_running_false more s hrun, ?_, ?_⟩
    · intro i w env hw
      have hmem : w ∈ s.workers := List.getElem?_mem hw
      obtain ⟨h1, h2, h3, h4, h5⟩ :=
        workerThread_winds_down s.variant s.clock env s.shared w hrun (clk w hmem).1
      refine ⟨h1, h2, h3, h4, h5, ?_⟩
      intro hcas
      obtain ⟨w', hw', hle⟩ := drain_steps i env hcas 7 s w hw hrun (clk w hmem)
      refine ⟨w', hw', stepsLeft_eq_zero (run s (drainSchedule i env 7)).shared w' ?_⟩
      have := stepsLeft_le s.shared w
      omega
    · intro i w more hw
      have hmem : w ∈ s.workers := List.getElem?_mem hw
      obtain ⟨w1, new, hw1, hlog, hwd⟩ := run_windDown i more s w hw hrun (clk w hmem).1
      have hc := hwd.2.1
      have hs := hwd.2.2
      have hc0 : w.pc.connectsLeft ≤ 1 := by cases w.pc <;> simp [Pc.connectsLeft]
      have hs0 : w.pc.sleepsLeft ≤ 2 := by cases w.pc <;> simp [Pc.sleepsLeft]
      refine ⟨w1, new, hw1, hlog, hwd, by omega, by omega, ?_⟩
      intro hne
      have hc1 : w.pc.connectsLeft = 0 := by
        cases hpc : w.pc <;> simp [Pc.connectsLeft]
        exact hne hpc
      have hs1 : w.pc.sleepsLeft ≤ 1 := by
        cases hpc : w.pc <;> simp [Pc.sleepsLeft]
        exact hne hpc
      exact ⟨by omega, by omega⟩

/-! ## Unguarded divisions -/

/-- C6 fails on the code: the latency reporter divides without a guard.
Started with rate 100 and four workers against a server that cannot be
reached, its first report prints a count of 0 and NaN as the average latency;
and whenever the exchanged count is 0 the printed average is not finite (NaN
when the exchanged latency total is 0, an infinity otherwise). -/
theorem latency_average_unguarded :
    (∃ s0, testConnection Variant.latency 100 4 = some s0 ∧
      (run s0 unreachableSchedule).reporter.output = [Report.latency 0 F64.nan]) ∧
    (∀ (clock : Int) (allDone : Bool) (sh : Shared) (r : Reporter),
      r.pc = RPc.average → r.connectionsPerSecond = 0 →
      ∃ a, (reporterStep Variant.latency clock allDone sh r).1.output
          = r.output ++ [Report.latency 0 a] ∧ a.isFinite = false ∧
        (sh.totalLatency = 0 → a = F64.nan)) := by
  constructor
  · exact ⟨_, testConnection_eq Variant.latency 100 4 25 (by decide), by decide!⟩
  · intro clock allDone sh r hpc h0
    refine ⟨F64.divInt sh.totalLatency 0, ?_, ?_, ?_⟩
    · simp [reporterStep, hpc, h0]
    · simp only [F64.divInt, if_true]
      split
      · rfl
      · split <;> rfl
    · intro ht
      simp [F64.divInt, ht]

/-- C8 fails on the code: `main` passes the worker count on unchecked.  Whatever
three integers the last three arguments parse to, the call of `testConnection`
is made with them.  With `num_threads` given as `0` the call
`testConnection(host, 6379, 100, 0)` is made and `100 / 0` is evaluated, which
has no defined result (both programs); with `-1` the call is made as well, no
worker is spawned and the reporter prints its lines. -/
theorem main_accepts_zero_threads :
    (∀ (prog host a2 a3 a4 : String) (port desiredRate numThreads : Int),
      stoi a2 = some port → stoi a3 = some desiredRate → stoi a4 = some numThreads →
      parseArgs [prog, host, a2, a3, a4] = Startup.call host port desiredRate numThreads) ∧
    parseArgs ["./redis_connection_test", "127.0.0.1", "6379", "100", "0"]
      = Startup.call "127.0.0.1" 6379 100 0 ∧
    intDiv 100 0 = none ∧
    main Variant.plain ["./redis_connection_test", "127.0.0.1", "6379", "100", "0"]
      = MainResult.undefinedDivision ∧
    main Variant.latency ["./redis_connection_test", "127.0.0.1", "6379", "100", "0"]
      = MainResult.undefinedDivision ∧
    parseArgs ["./redis_connection_test", "127.0.0.1", "6379", "100", "-1"]
      = Startup.call "127.0.0.1" 6379 100 (-1) ∧
    main Variant.plain ["./redis_connection_test", "127.0.0.1", "6379", "100", "-1"]
      = MainResult.running (boot Variant.plain []) ∧
    (run (boot Variant.plain []) idleSecond).reporter.output = [Report.rate 0 0] := by
  refine ⟨?_, by decide!, by decide!, by decide!, by decide!, by decide!, ?_, by decide!⟩
  · intro prog host a2 a3 a4 port desiredRate numThreads h2 h3 h4
    simp only [parseArgs, h2, h3, h4]
  have hp : parseArgs ["./redis_connection_test", "127.0.0.1", "6379", "100", "-1"]
      = Startup.call "127.0.0.1" 6379 100 (-1) := by decide!
  have ht := testConnection_eq Variant.plain 100 (-1) (-100) (by decide!)
  simp only [main, hp, ht]
  rfl

/-! ## Instances -/

/-- C2 on `busySchedule`: the reporter obtained 2 and then 1, the counter is
back at 0, and three cycles were completed. -/
theorem counter_conserves_cycles_witness :
    counterNeverWraps (boot Variant.plain ([2, 1].map spawn)) busySchedule = true ∧
    busyState.reporter.obtained = [1, 2] ∧ totalCompleted busyState = 3 ∧
    busyState.reporter.obtained.sum + busyState.shared.totalConnections
      = (totalCompleted busyState : Int) :=
  ⟨by decide!, by decide!, by decide!,
    (counter_conserves_cycles Variant.plain [2, 1] busySchedule (by decide!)).1⟩

/-- C3 on `busySchedule`: worker 0, with quota 2, counted one cycle in each of
its two windows. -/
theorem window_quota_is_ceiling_witness :
    busyWorker ∈ (run (boot Variant.plain ([2, 1].map spawn)) busySchedule).workers ∧
    windowIncs busyWorker.log = [1, 1] ∧ busyWorker.desiredRate = 2 ∧
    busyWorker.connections ≤ max busyWorker.desiredRate 0 ∧
    ∀ c ∈ windowIncs busyWorker.log, (c : Int) ≤ max busyWorker.desiredRate 0 :=
  ⟨by decide!, by decide!, by decide!,
    (window_quota_is_ceiling Variant.plain [2, 1] busySchedule busyWorker (by decide!)).1,
    (window_quota_is_ceiling Variant.plain [2, 1] busySchedule busyWorker (by decide!)).2.2.1⟩

/-- C4 on a successful connect with a reply in the latency program: connect,
command, reply freed, close, one increment; the counts go from 3 to 4 and from
7 to 8. -/
theorem successful_connect_counts_once_witness :
    (workerThread Variant.latency 0 serverUp sharedSeven attemptWorker).1.log
      = [Event.incTotal, Event.redisFree, Event.freeReply, Event.command,
         Event.connect ConnectResult.ok] ∧
    (workerThread Variant.latency 0 serverUp sharedSeven attemptWorker).1.connections = 4 ∧
    (workerThread Variant.latency 0 serverUp sharedSeven attemptWorker).2.totalConnections = 8 :=
  ⟨(successful_connect_counts_once Variant.latency 0 serverUp sharedSeven attemptWorker
      rfl rfl).1.1,
   (successful_connect_counts_once Variant.latency 0 serverUp sharedSeven attemptWorker
      rfl rfl).1.2.1,
   (successful_connect_counts_once Variant.latency 0 serverUp sharedSeven attemptWorker
      rfl rfl).1.2.2.2.1 (by decide)⟩

/-- C5 on a null handle: only the connect and the 10 ms sleep are recorded and
the shared cells are untouched; and after `unreachableSchedule` the counter is
0. -/
theorem failed_connect_counts_nothing_witness :
    (workerThread Variant.plain 0 serverDown sharedSeven attemptWorker).1.log
      = [Event.sleep 10, Event.connect ConnectResult.null] ∧
    (workerThread Variant.plain 0 serverDown sharedSeven attemptWorker).2 = sharedSeven ∧
    allConnectsFail unreachableSchedule = true ∧
    (run (boot Variant.latency ([25, 25].map spawn)) unreachableSchedule).shared.totalConnections
      = 0 :=
  ⟨(failed_connect_counts_nothing.1 Variant.plain 0 serverDown sharedSeven attemptWorker
      rfl rfl).1,
   (failed_connect_counts_nothing.1 Variant.plain 0 serverDown sharedSeven attemptWorker
      rfl rfl).2.2.1,
   by decide!,
   (failed_connect_counts_nothing.2 Variant.latency [25, 25] unreachableSchedule
      (by decide!)).1⟩

/-- C7 as amended, on `stopSchedule` and `flipSchedule`: the one sleep after the
stop lasts 998 ms and the worker returns within two steps; a worker caught by
SIGINT inside an iteration of the latency program returns within seven. -/
theorem shutdown_sleep_within_window_witness :
    (run (boot Variant.plain ([5].map spawn)) stopSchedule).workers.map
        (fun w => sleepsAfterStop w.log) = [[998]] ∧
    SleepsAfterStopWithin 1000 (run (boot Variant.plain ([5].map spawn)) stopSchedule) ∧
    (run (boot Variant.plain ([5].map spawn)) stopSchedule).workers[0]? = some stoppedWorker ∧
    sawStop stoppedWorker.log = true ∧
    (∃ w2, (run (run (boot Variant.plain ([5].map spawn)) stopSchedule)
        (exitSchedule 0 serverUp serverUp)).workers[0]? = some w2 ∧ w2.pc = Pc.done) ∧
    (run (boot Variant.latency ([5].map spawn)) flipSchedule).shared.running = false ∧
    (run (boot Variant.latency ([5].map spawn)) flipSchedule).workers[0]? = some flippedWorker ∧
    flippedWorker.pc = Pc.attempt ∧
    (∃ w', (run (run (boot Variant.latency ([5].map spawn)) flipSchedule)
        (drainSchedule 0 serverUp 7)).workers[0]? = some w' ∧ w'.pc = Pc.done) :=
  ⟨by decide!, (shutdown_sleep_within_window Variant.plain [5] stopSchedule).1,
   by decide!, by decide!,
   (shutdown_sleep_within_window Variant.plain [5] stopSchedule).2.2.1 0 stoppedWorker
     serverUp serverUp (by decide!) (by decide!),
   by decide!, by decide!, by decide!,
   (((shutdown_sleep_within_window Variant.latency [5] flipSchedule).2.2.2 (by decide!)).2.1
     0 flippedWorker serverUp (by decide!)).2.2.2.2.2 rfl⟩


/-- C9 on `busySchedule`: the second report shows the count 1 and the average
`1 / 2 = 0`. -/
theorem plain_average_divides_last_count_witness :
    (run (boot Variant.plain ([2, 1].map spawn)) busySchedule).reporter.obtained.reverse
      = [2, 1] ∧
    (run (boot Variant.plain ([2, 1].map spawn)) busySchedule).reporter.output[1]?
      = some (Report.rate 1 (Int.tdiv 1 ((1 : Nat) + 1))) ∧
    Int.tdiv 1 2 = 0 :=
  ⟨by decide!,
   ((plain_average_divides_last_count [2, 1] busySchedule).2.2.2 1 1 (by decide!)).1,
   by decide⟩

/-- C10 on a window that took 250 ms: the worker sleeps 750 ms. -/
theorem pacing_pads_window_witness :
    pacingWorker.start ≤ 250000000 ∧
    elapsedMillis pacingWorker.start 250000000 = 250 ∧
    (workerThread Variant.plain 250000000 serverUp sharedSeven pacingWorker).1.log
      = [Event.sleep 750] :=
  ⟨by decide, by decide,
   ((pacing_pads_window Variant.plain 250000000 serverUp sharedSeven pacingWorker rfl
      (by decide)).2.1 (by decide)).2.1⟩


end CpsTest
